import Mathlib

/-!
Verification of the citation resolution and APA-formatting subsystem of a
static portfolio website (`main.js`).  The JavaScript functions are embedded
shallowly: strings become `List Char` (wrapped in `String` at the public
boundary), the regular-expression operations are hand-rolled scanners with
the same semantics, and the process-wide bibliography index becomes an
explicit value threaded through the resolver.
-/
/-! ### Character classes (JavaScript `\s`, `\w`, `[a-z]`, `[A-Z]`, `\d`) -/
def isWS (c : Char) : Bool :=
  c == ' ' || c == '\t' || c == '\n' || c == '\r' || c == '\x0b' || c == '\x0c'

def isLowerAlpha (c : Char) : Bool := decide (97 ≤ c.toNat ∧ c.toNat ≤ 122)

def isUpperAlpha (c : Char) : Bool := decide (65 ≤ c.toNat ∧ c.toNat ≤ 90)

def isDigitCh (c : Char) : Bool := decide (48 ≤ c.toNat ∧ c.toNat ≤ 57)

def isWordChar (c : Char) : Bool :=
  isLowerAlpha c || isUpperAlpha c || isDigitCh c || c == '_'

/-- ASCII lower-casing of a single character (model of JS `toLowerCase`). -/
def lowerChar (c : Char) : Char :=
  if isUpperAlpha c then Char.ofNat (c.toNat + 32) else c

/-- ASCII upper-casing of a single character (model of JS `toUpperCase`). -/
def upperChar (c : Char) : Char :=
  if isLowerAlpha c then Char.ofNat (c.toNat - 32) else c

/-! ### Generic string helpers (JS `trim`, `replace(/\s+/g,' ')`, joins) -/
/-- JS `String.prototype.trim`. -/
def jsTrim (l : List Char) : List Char :=
  ((l.dropWhile isWS).reverse.dropWhile isWS).reverse

/-- State-machine core of `replace(/P+/g, rep)` for a character class `P`:
`prev` records whether the previous character belonged to the run currently
being replaced. -/
def collapseRunsGo (p : Char → Bool) (rep : Char) : Bool → List Char → List Char
  | _, [] => []
  | prev, c :: rest =>
    if p c then
      if prev then collapseRunsGo p rep true rest else rep :: collapseRunsGo p rep true rest
    else c :: collapseRunsGo p rep false rest

/-- JS `replace(/\s+/g, ' ')`: every maximal whitespace run becomes one space. -/
def collapseWS (l : List Char) : List Char := collapseRunsGo isWS ' ' false l

/-- Case-insensitive literal prefix removal: `some r` when `pat` (compared
through `lowerChar`) heads `l` and `r` is the remainder. -/
def stripCI : List Char → List Char → Option (List Char)
  | [], l => some l
  | _ :: _, [] => none
  | p :: ps, c :: cs => if lowerChar p = lowerChar c then stripCI ps cs else none

/-! ### DOI normalisation (`normDOI`) -/
/-- `replace(/^https?:\/\/(dx\.)?doi\.org\//i, '')`: the four concrete
alternatives of the anchored pattern, tried literally. -/
def dropDoiScheme (l : List Char) : List Char :=
  match stripCI "https://doi.org/".data l with
  | some r => r
  | none =>
    match stripCI "https://dx.doi.org/".data l with
    | some r => r
    | none =>
      match stripCI "http://doi.org/".data l with
      | some r => r
      | none =>
        match stripCI "http://dx.doi.org/".data l with
        | some r => r
        | none => l

/-- `replace(/^\s*doi:\s*/i, '')`: when the label is present after leading
whitespace the whole match (label and surrounding whitespace) is removed,
otherwise the string is unchanged. -/
def dropDoiLabel (l : List Char) : List Char :=
  match stripCI "doi:".data (l.dropWhile isWS) with
  | some r => r.dropWhile isWS
  | none => l

/-- `replace(/[.,;]\s*$/, '')`: one trailing punctuation character (plus any
whitespace after it) is removed from the end. -/
def dropTrailPunct (l : List Char) : List Char :=
  match l.reverse.dropWhile isWS with
  | c :: rest => if c == '.' || c == ',' || c == ';' then rest.reverse else l
  | [] => l

/-- `normDOI` over character lists: trim, strip the `doi.org` URL scheme, strip
a leading `doi:` label, strip one trailing punctuation mark, lower-case. -/
def normDOIList (l : List Char) : List Char :=
  (dropTrailPunct (dropDoiLabel (dropDoiScheme (jsTrim l)))).map lowerChar

/-- `normDOI` from `main.js` (the `!s` guard is the identity on `""`). -/
def normDOI (s : String) : String := ⟨normDOIList s.data⟩

/-! ### Title normalisation (`normalizeTitle`) -/
/-- `normalizeTitle` over character lists: remove brace characters, lower-case,
collapse every run outside `[a-z0-9]` to a single space, trim, and collapse
whitespace (`replace(/[{}]/g,'')`, `toLowerCase()`, `replace(/[^a-z0-9]+/g,' ')`,
`trim()`, `replace(/\s+/g,' ')`). -/
def normalizeTitleList (l : List Char) : List Char :=
  collapseWS (jsTrim (collapseRunsGo (fun c => !(isLowerAlpha c || isDigitCh c)) ' ' false
    ((l.filter (fun c => !(c == '{' || c == '}'))).map lowerChar)))

/-- `normalizeTitle` from `main.js`. -/
def normalizeTitle (s : String) : String := ⟨normalizeTitleList s.data⟩

/-! ### Entry splitter (`splitBibEntries`) -/
/-- Scanner state for the entry splitter: looking for `@`, accumulating the
header before the opening brace, or inside a brace-balanced body at a given
depth.  Accumulators are reversed. -/
inductive SpState where
  | seek : SpState
  | header : List Char → SpState
  | body : Nat → List Char → SpState

/-- The index-based loop of `splitBibEntries` as a character scanner.  In
`seek` it looks for the next `@` (`indexOf('@', i)`); in `header` it looks for
the following `{` (`indexOf('{', at)`), discarding the piece when the input
ends first; in `body` it counts brace depth, emitting the slice from `@` to the
closing brace, or the unterminated remainder at end of input. -/
def spGo : SpState → List Char → List (List Char)
  | st, [] =>
    match st with
    | SpState.body _ acc => [acc.reverse]
    | _ => []
  | SpState.seek, c :: cs =>
    if c = '@' then spGo (SpState.header ['@']) cs else spGo SpState.seek cs
  | SpState.header acc, c :: cs =>
    if c = '{' then spGo (SpState.body 1 ('{' :: acc)) cs else spGo (SpState.header (c :: acc)) cs
  | SpState.body depth acc, c :: cs =>
    let d' := if c = '{' then depth + 1 else if c = '}' then depth - 1 else depth
    if d' = 0 then (c :: acc).reverse :: spGo SpState.seek cs
    else spGo (SpState.body d' (c :: acc)) cs

def splitBibEntriesList (text : List Char) : List (List Char) := spGo SpState.seek text

/-- `splitBibEntries` from `main.js`. -/
def splitBibEntries (text : String) : List String :=
  (splitBibEntriesList text.data).map String.mk

/-! ### Field extractor (`getBibField`) -/
/-- The `\s*=` part shared by the three field patterns: skip whitespace, then
require a literal `=`, returning the text after it. -/
def eqThen (t : List Char) : Option (List Char) :=
  match t.dropWhile isWS with
  | '=' :: r => some r
  | _ => none

/-- After `name\s*=`: the `\s*\{([\s\S]*?)\}` tail — skip whitespace, require
`{`, capture lazily up to the first `}` (failing when no `}` follows). -/
def braceTail (t : List Char) : Option (List Char) :=
  match t.dropWhile isWS with
  | '{' :: t2 => if t2.any (· == '}') then some (t2.takeWhile (· ≠ '}')) else none
  | _ => none

/-- After `name\s*=`: the `\s*"([\s\S]*?)"` tail — skip whitespace, require
`"`, capture lazily up to the next `"`. -/
def quoteTail (t : List Char) : Option (List Char) :=
  match t.dropWhile isWS with
  | '"' :: t2 => if t2.any (· == '"') then some (t2.takeWhile (· ≠ '"')) else none
  | _ => none

/-- After `name\s*=`: the `\s*([^,\n]+)\s*,` tail with JS backtracking
semantics.  `P` is the text before the first comma (the match fails when no
comma follows); the greedy capture runs from the first non-whitespace
character up to the first newline, provided no newline interrupts the
non-whitespace core; when `P` is all whitespace the capture degenerates to its
last non-newline character. -/
def bareTail (t : List Char) : Option (List Char) :=
  let P := t.takeWhile (· ≠ ',')
  if P.length = t.length then none
  else
    let W := P.dropWhile isWS
    let core := (W.reverse.dropWhile isWS).reverse
    if core ≠ [] then
      if '\n' ∈ core then none else some (W.takeWhile (· ≠ '\n'))
    else
      match P.reverse.dropWhile (· == '\n') with
      | c :: _ => some [c]
      | [] => none

/-- Leftmost-match scan shared by the three field regexes: at every position
with a word boundary (`\b`), try the case-insensitive field name followed by
the pattern tail `f`; on failure resume at the next character. -/
def scanFields (f : List Char → Option (List Char)) (name : List Char) :
    Bool → List Char → Option (List Char)
  | _, [] => none
  | prevWord, l@(c :: rest) =>
    (if prevWord then none
     else
       match stripCI name l with
       | some r => f r
       | none => none)
    <|> scanFields f name (isWordChar c) rest

def findBrace (name entry : List Char) : Option (List Char) :=
  scanFields (fun r => (eqThen r).bind braceTail) name false entry

def findQuote (name entry : List Char) : Option (List Char) :=
  scanFields (fun r => (eqThen r).bind quoteTail) name false entry

def findBare (name entry : List Char) : Option (List Char) :=
  scanFields (fun r => (eqThen r).bind bareTail) name false entry

/-- `m[1].trim().replace(/,\s*$/,'')`: trim, then drop one trailing comma. -/
def postTrimComma (v : List Char) : List Char :=
  let t := jsTrim v
  match t.reverse with
  | ',' :: r => r.reverse
  | _ => t

/-- `getBibField` over character lists: the brace, quote and bare patterns
tried in this order, first match winning. -/
def getBibFieldList (entry name : List Char) : List Char :=
  match findBrace name entry with
  | some v => postTrimComma v
  | none =>
    match findQuote name entry with
    | some v => postTrimComma v
    | none =>
      match findBare name entry with
      | some v => jsTrim v
      | none => []

/-- `getBibField` from `main.js`. -/
def getBibField (entry name : String) : String := ⟨getBibFieldList entry.data name.data⟩

/-! ### Bibliography index (`buildBibIndex`) -/
/-- Insertion-ordered map update with JS `Map.set` semantics: an existing key
keeps its position and gets the new value; a new key is appended. -/
def mapSet (k v : String) : List (String × String) → List (String × String)
  | [] => [(k, v)]
  | (k', v') :: rest => if k' = k then (k, v) :: rest else (k', v') :: mapSet k v rest

/-- JS `Map.get` (`none` models `undefined`). -/
def mapGet (k : String) : List (String × String) → Option String
  | [] => none
  | (k', v') :: rest => if k' = k then some v' else mapGet k rest

/-- The `{entries, byDOI, byTitle}` structure stored in `BIB_INDEX`. -/
structure BibIndex where
  entries : List String
  byDOI : List (String × String)
  byTitle : List (String × String)

/-- JS `a || b` on strings (empty string is falsy). -/
def jsOr (a b : String) : String := if a = "" then b else a

/-- The normalized DOI key an entry is indexed under. -/
def doiKeyOf (e : String) : String := normDOI (jsOr (getBibField e "doi") (getBibField e "DOI"))

/-- The normalized title key an entry is indexed under. -/
def titleKeyOf (e : String) : String := normalizeTitle (getBibField e "title")

/-- One iteration of the indexing loop: `if(doi) byDOI.set(doi, e)` and
`if(t) byTitle.set(t, e)`. -/
def bibStep (m : List (String × String) × List (String × String)) (e : String) :
    List (String × String) × List (String × String) :=
  (if doiKeyOf e ≠ "" then mapSet (doiKeyOf e) e m.1 else m.1,
   if titleKeyOf e ≠ "" then mapSet (titleKeyOf e) e m.2 else m.2)

/-- `buildBibIndex` from `main.js`, returning the constructed index instead of
assigning the module-level `BIB_INDEX`. -/
def buildBibIndex (bib : String) : BibIndex :=
  let entries := splitBibEntries bib
  let maps := entries.foldl bibStep ([], [])
  ⟨entries, maps.1, maps.2⟩

/-! ### Entry resolver (`findBibEntryFor`) -/
/-- A publication record from the content document.  Absent fields are
modelled as the empty string (the code only uses them through `|| ''` and
truthiness tests). -/
structure Pub where
  title : String
  authors : String
  year : String
  doi : String

/-- `pub?.doi || ''`: a null record or absent field yields `''`. -/
def pubDoi : Option Pub → String
  | none => ""
  | some p => p.doi

/-- `pub?.title || ''`. -/
def pubTitle : Option Pub → String
  | none => ""
  | some p => p.title

/-- JS `String.prototype.includes` on character lists (`sub` inside `hay`). -/
def containsSeq : List Char → List Char → Bool
  | needle, [] => needle.isEmpty
  | needle, hay@(_ :: t) => needle.isPrefixOf hay || containsSeq needle t

def jsIncludes (hay sub : String) : Bool := containsSeq sub.data hay.data

/-- One iteration of the fuzzy loop of `findBibEntryFor`: when either
normalized title contains the other, a candidate scoring
`min(key.length, t.length)` strictly above the best so far replaces it. -/
def fuzzyStep (t : String) (best : String × Nat) (kv : String × String) : String × Nat :=
  if jsIncludes kv.1 t || jsIncludes t kv.1 then
    if best.2 < min kv.1.length t.length then (kv.2, min kv.1.length t.length)
    else best
  else best

/-- `findBibEntryFor` from `main.js`: the module-level `BIB_INDEX` (possibly
not yet built) and the possibly-null record become explicit arguments.  DOI
lookup, then exact normalized-title lookup, then the fuzzy
best-length-overlap scan over the title map. -/
def findBibEntryFor (idx : Option BibIndex) (pub : Option Pub) : String :=
  match idx with
  | none => ""
  | some bi =>
    let doi := normDOI (pubDoi pub)
    match (if doi = "" then none else mapGet doi bi.byDOI) with
    | some e => e
    | none =>
      let t := normalizeTitle (pubTitle pub)
      match (if t = "" then none else mapGet t bi.byTitle) with
      | some e => e
      | none =>
        if t = "" then ""
        else (bi.byTitle.foldl (fuzzyStep t) ("", 0)).1

/-! ### Synthesized minimal entry (`bibtexFromPub`) -/
/-- The slug part of the generated key: lower-case, collapse non-alphanumeric
runs to single hyphens, strip leading and trailing hyphen runs. -/
def slugify (l : List Char) : List Char :=
  ((collapseRunsGo (fun c => !(isLowerAlpha c || isDigitCh c)) '-' false
      (l.map lowerChar)).dropWhile (· == '-')).reverse.dropWhile (· == '-') |>.reverse

/-- The generated citation key: `year-` prefix when the year is truthy, the
slugified title, truncated to 60 characters, defaulting to `citation`. -/
def bibtexKey (pub : Pub) : String :=
  let base := (if pub.year ≠ "" then pub.year.data ++ ['-'] else []) ++ slugify pub.title.data
  let k := base.take 60
  if k = [] then "citation" else ⟨k⟩

/-- The `lines` array of `bibtexFromPub` after `.filter(Boolean)`: the
`@article` head and the `title` line are unconditional, the `author`, `year`
and `doi` lines are included only when their value is truthy. -/
def bibtexLines (pub : Pub) : List String :=
  let key := bibtexKey pub
  let doi := normDOI pub.doi
  ["@article\x7b" ++ key ++ ",", "  title = \x7b" ++ pub.title ++ "\x7d,"] ++
  (if pub.authors ≠ "" then ["  author = \x7b" ++ pub.authors ++ "\x7d,"] else []) ++
  (if pub.year ≠ "" then ["  year = \x7b" ++ pub.year ++ "\x7d,"] else []) ++
  (if doi ≠ "" then ["  doi = \x7b" ++ doi ++ "\x7d,"] else []) ++
  ["\x7d"]

/-- `bibtexFromPub` from `main.js` (`lines.join('\n')`). -/
def bibtexFromPub (pub : Pub) : String := String.intercalate "\n" (bibtexLines pub)

/-! ### APA author formatting -/
/-- One attempt of the separator `\s+and\s+` (case-insensitive) at the current
position: at least one whitespace character, the literal `and`, at least one
whitespace character, returning the text after the separator. -/
def matchAndSep (l : List Char) : Option (List Char) :=
  if l.takeWhile isWS = [] then none
  else
    match stripCI "and".data (l.dropWhile isWS) with
    | some r2 => if r2.takeWhile isWS = [] then none else some (r2.dropWhile isWS)
    | none => none

/-- Fuel-indexed scan of `split(/\s+and\s+/i)`; the fuel is the input length,
enough because every step consumes at least one character. -/
def splitAndAux : Nat → List Char → List Char → List (List Char)
  | 0, cur, _ => [cur.reverse]
  | _ + 1, cur, [] => [cur.reverse]
  | fuel + 1, cur, l@(c :: rest) =>
    match matchAndSep l with
    | some r => cur.reverse :: splitAndAux fuel [] r
    | none => splitAndAux fuel (c :: cur) rest

def splitOnAnd (l : List Char) : List (List Char) := splitAndAux l.length [] l

/-- `splitBibAuthors` from `main.js`. -/
def splitBibAuthors (s : String) : List String :=
  if s = "" then []
  else
    (((splitOnAnd s.data).map
        (fun x => jsTrim (x.filter (fun c => !(c == '{' || c == '}'))))).filter
      (· ≠ [])).map String.mk

/-- JS `split(sep)` for a single-character separator (all occurrences). -/
def splitOnChar (sep : Char) : List Char → List (List Char)
  | [] => [[]]
  | c :: r =>
    match splitOnChar sep r with
    | [] => [[c]]
    | s :: ss => if c = sep then [] :: s :: ss else (c :: s) :: ss

/-- JS `split(/\s+/)`: whitespace runs separate the pieces; a leading or
trailing run contributes an empty piece. -/
def splitWSAux : Bool → List Char → List Char → List (List Char)
  | false, cur, [] => [cur.reverse]
  | true, _, [] => [[]]
  | false, cur, c :: r =>
    if isWS c then cur.reverse :: splitWSAux true [] r else splitWSAux false (c :: cur) r
  | true, cur, c :: r =>
    if isWS c then splitWSAux true cur r else splitWSAux false [c] r

def splitWSRuns (l : List Char) : List (List Char) := splitWSAux false [] l

/-- Given-names to initials: each whitespace-separated chunk becomes its
hyphen-separated parts' first letters upper-cased with periods. -/
def initialsOf (rest : List Char) : List Char :=
  List.intercalate [' ']
    (((splitWSRuns rest).filter (· ≠ [])).map (fun chunk =>
      List.intercalate ['-']
        (((splitOnChar '-' chunk).filter (· ≠ [])).map (fun p =>
          match p with
          | c :: _ => [upperChar c, '.']
          | [] => []))))

/-- `nameToApa` from `main.js`. -/
def nameToApa (n : List Char) : List Char :=
  let pair : List Char × List Char :=
    if n.any (· == ',') then
      let parts := splitOnChar ',' n
      (jsTrim (parts.headD []), jsTrim ((parts.drop 1).headD []))
    else
      let parts := splitWSRuns (jsTrim n)
      (parts.getLastD [], List.intercalate [' '] parts.dropLast)
  let initials := initialsOf pair.2
  if pair.1 ≠ [] then
    jsTrim (pair.1 ++ (if initials ≠ [] then ',' :: ' ' :: initials else []))
  else jsTrim n

/-- `formatAuthorsAPA` from `main.js` (APA 7th joining rules, ellipsis past
20 authors). -/
def formatAuthorsAPA (authors : List String) : String :=
  let A := authors.map (fun a => String.mk (nameToApa a.data))
  if A.length = 0 then ""
  else if A.length ≤ 20 then
    if A.length = 1 then A.headD ""
    else String.intercalate ", " A.dropLast ++ ", & " ++ A.getLastD ""
  else String.intercalate ", " (A.take 19) ++ ", …, " ++ A.getLastD ""

/-! ### Sentence-casing (`sentenceCase`) -/
/-- `replace(/^{|}$/g,'')`: one leading `{` and one trailing `}` removed. -/
def stripBracesEnds (l : List Char) : List Char :=
  let l1 := if l.head? == some '{' then l.tail else l
  if l1.getLast? == some '}' then l1.dropLast else l1

/-- `replace(/^([a-z])/, c => c.toUpperCase())`. -/
def capFirst : List Char → List Char
  | [] => []
  | c :: r => if isLowerAlpha c then upperChar c :: r else c :: r

/-- Scanner state for `replace(/:\s*([a-z])/g, ': ' + upper)`: either plain
scanning or holding a pending `:` plus the (reversed) whitespace read after
it. -/
inductive CCSt where
  | norm : CCSt
  | pend : List Char → CCSt

/-- The global colon-capitalisation replace as a one-pass scanner: a `:`
followed by optional whitespace and a lower-case letter is rewritten to
`: ` plus the upper-cased letter; any failed attempt flushes the pending
characters verbatim. -/
def ccGo : CCSt → List Char → List Char
  | CCSt.norm, [] => []
  | CCSt.pend ws, [] => ':' :: ws.reverse
  | CCSt.norm, c :: r => if c = ':' then ccGo (CCSt.pend []) r else c :: ccGo CCSt.norm r
  | CCSt.pend ws, c :: r =>
    if c = ':' then (':' :: ws.reverse) ++ ccGo (CCSt.pend []) r
    else if isWS c then ccGo (CCSt.pend (c :: ws)) r
    else if isLowerAlpha c then ':' :: ' ' :: upperChar c :: ccGo CCSt.norm r
    else (':' :: ws.reverse) ++ (c :: ccGo CCSt.norm r)

def capColons (l : List Char) : List Char := ccGo CCSt.norm l

/-- `split(/\b/)` — maximal runs of characters of equal word-ness.  `w` is the
word-ness of the run being accumulated (reversed) in `acc`. -/
def groupRunsGo (w : Bool) (acc : List Char) : List Char → List (List Char)
  | [] => [acc.reverse]
  | c :: rest =>
    if isWordChar c = w then groupRunsGo w (c :: acc) rest
    else acc.reverse :: groupRunsGo (isWordChar c) [c] rest

def groupRuns : List Char → List (List Char)
  | [] => []
  | c :: rest => groupRunsGo (isWordChar c) [c] rest

/-- `/[A-Z]{2,}/.test`: the token contains two consecutive upper-case
letters. -/
def hasCapsRun : List Char → Bool
  | a :: b :: rest => (isUpperAlpha a && isUpperAlpha b) || hasCapsRun (b :: rest)
  | _ => false

/-- The token-overwrite loop `outTokens[i] = tokens[i]` followed by
`join('')`, with JS sparse-array semantics (a hole joins as the empty
string). -/
def overwriteIdx (toks outs : List (List Char)) : List (List Char) :=
  (List.range (max toks.length outs.length)).map (fun i =>
    if h : i < toks.length then
      if hasCapsRun (toks.get ⟨i, h⟩) then toks.get ⟨i, h⟩ else outs.getD i []
    else outs.getD i [])

/-- `replace(/\.\s*$/,'')`: one trailing period (plus trailing whitespace)
removed. -/
def stripTrailingDot (l : List Char) : List Char :=
  match l.reverse.dropWhile isWS with
  | '.' :: r => r.reverse
  | _ => l

/-- `sentenceCase` over character lists, following the source line by line. -/
def sentenceCaseList (t : List Char) : List Char :=
  let s := stripBracesEnds (jsTrim (collapseWS t))
  let out := capColons (capFirst (s.map lowerChar))
  stripTrailingDot ((overwriteIdx (groupRuns s) (groupRuns out)).flatten)

/-- `sentenceCase` from `main.js` (`if(!t) return ''` guard included). -/
def sentenceCase (t : String) : String := if t = "" then "" else ⟨sentenceCaseList t.data⟩

/-! ### Word-level reading of sentence-casing (the specification's wording) -/
def isWordTok : List Char → Bool
  | c :: _ => isWordChar c
  | [] => false

def endsColon (tok : List Char) : Bool := tok.getLast? == some ':'

def endsColonSpace (tok : List Char) : Bool :=
  tok.getLast? == some ' ' && tok.dropLast.getLast? == some ':'

def startsLower : List (List Char) → Bool
  | (c :: _) :: _ => isLowerAlpha c
  | _ => false

/-- Word-level capitalisation: the flag says the next word token's first
letter is to be capitalized (start of string, or a preceding colon); a
non-word token ending in `:` directly before a lower-case letter gains the
space the replacement inserts. -/
def capToks : Bool → List (List Char) → List (List Char)
  | _, [] => []
  | cap, tok :: rest =>
    if isWordTok tok then
      (if cap then capFirst tok else tok) :: capToks false rest
    else
      if endsColon tok && startsLower rest then (tok ++ [' ']) :: capToks true rest
      else if endsColonSpace tok && startsLower rest then tok :: capToks true rest
      else tok :: capToks false rest

/-- Sentence-casing as the specification words it: split the prepared string
into word/non-word runs, lower-case them, capitalize the first letter and
the first letter after each colon, then put every original word satisfying
`pred` back verbatim; finally drop a trailing period. -/
def sentenceCaseWords (pred : List Char → Bool) (t : List Char) : List Char :=
  let s := stripBracesEnds (jsTrim (collapseWS t))
  let toks := groupRuns s
  let capped := capToks true (toks.map (·.map lowerChar))
  stripTrailingDot (List.flatten (List.zipWith (fun o c => if pred o then o else c) toks capped))

/-- The claim's preservation test: a word that is entirely upper-case with at
least two letters. -/
def allCapsWord (w : List Char) : Bool := decide (2 ≤ w.length) && w.all isUpperAlpha

def sentenceCaseSpec (pred : List Char → Bool) (t : String) : String :=
  ⟨sentenceCaseWords pred t.data⟩

/-! ### Remaining APA pieces -/
/-- The global replace of `--` or `-` by the en-dash, as a scanner. -/
def dashNorm : List Char → List Char
  | [] => []
  | '-' :: '-' :: rest => '–' :: dashNorm rest
  | '-' :: rest => '–' :: dashNorm rest
  | c :: rest => c :: dashNorm rest

/-- `pagesNormalize` from `main.js`: trim, delete all whitespace, en-dash. -/
def pagesNormalize (p : String) : String :=
  ⟨dashNorm ((jsTrim p.data).filter (fun c => !isWS c))⟩

/-- `formatDOIUrl` from `main.js`. -/
def formatDOIUrl (raw : String) : String :=
  let d := normDOI raw
  if d = "" then "" else "https://doi.org/" ++ d

def digits4At : List Char → Option (List Char)
  | a :: b :: c :: d :: _ =>
    if isDigitCh a && isDigitCh b && isDigitCh c && isDigitCh d then some [a, b, c, d] else none
  | _ => none

/-- `match(/\d{4}/)`: the leftmost run of four digits. -/
def firstRun4 : List Char → Option (List Char)
  | [] => none
  | l@(_ :: rest) =>
    match digits4At l with
    | some v => some v
    | none => firstRun4 rest

/-- The year component of `apaFromBibtexEntry`:
`(getBibField(entry,'year') || getBibField(entry,'date')).match(/\d{4}/)?.[0] || 'n.d.'`. -/
def apaYearOf (entry : String) : String :=
  match firstRun4 (jsOr (getBibField entry "year") (getBibField entry "date")).data with
  | some v => ⟨v⟩
  | none => "n.d."

/-- `apaFromBibtexEntry` from `main.js`. -/
def apaFromBibtexEntry (entry : String) : String :=
  let authors := formatAuthorsAPA (splitBibAuthors (getBibField entry "author"))
  let year := apaYearOf entry
  let title := sentenceCase (getBibField entry "title")
  let journal := jsOr (getBibField entry "journal") (getBibField entry "journaltitle")
  let volume := getBibField entry "volume"
  let issue := jsOr (getBibField entry "number") (getBibField entry "issue")
  let pages0 := getBibField entry "pages"
  let eLoc := jsOr (getBibField entry "eid") (jsOr (getBibField entry "art_number")
    (jsOr (getBibField entry "article-number") (getBibField entry "artnum")))
  let pages := if pages0 = "" ∧ eLoc ≠ "" then eLoc else pages0
  let urlField := getBibField entry "url"
  let doiUrl := formatDOIUrl (jsOr (getBibField entry "doi") (jsOr (getBibField entry "DOI")
    (if urlField ≠ "" ∧ jsIncludes ⟨urlField.data.map lowerChar⟩ "doi.org" then urlField else "")))
  let head := String.intercalate " " ([authors, "(" ++ year ++ ").", title ++ "."].filter (· ≠ ""))
  let venue :=
    if journal ≠ "" then
      journal
        ++ (if volume ≠ "" then ", " ++ volume ++ (if issue ≠ "" then "(" ++ issue ++ ")" else "")
            else "")
        ++ (if pages ≠ "" then ", " ++ pagesNormalize pages else "") ++ "."
    else
      let publisher := getBibField entry "publisher"
      if publisher ≠ "" then publisher ++ "." else ""
  let ref := String.mk (jsTrim (collapseWS (String.intercalate " "
    ([head, venue].filter (· ≠ ""))).data))
  if doiUrl ≠ "" then String.mk (stripTrailingDot ref.data) ++ ". " ++ doiUrl else ref

/-! ### Claim C8: the year component -/
/-- The claim's reading of the year rule: first four-digit run of the `year`
field, and when the `year` field has no such run the run is taken from the
`date` field; `n.d.` only when neither has one. -/
def apaYearRunFallback (entry : String) : String :=
  match firstRun4 (getBibField entry "year").data with
  | some v => ⟨v⟩
  | none =>
    match firstRun4 (getBibField entry "date").data with
    | some v => ⟨v⟩
    | none => "n.d."

/-- The amended reading: the `date` field is consulted only when the `year`
field is empty; `n.d.` whenever the chosen field has no four-digit run. -/
def apaYearFieldFallback (entry : String) : String :=
  if getBibField entry "year" = "" then
    match firstRun4 (getBibField entry "date").data with
    | some v => ⟨v⟩
    | none => "n.d."
  else
    match firstRun4 (getBibField entry "year").data with
    | some v => ⟨v⟩
    | none => "n.d."

/-! ### Claim C3: the synthesized minimal entry -/
/-- The character in position 2 of a line, which discriminates the line kinds
of `bibtexLines` (`@article{` ↦ `r`, `  title` ↦ `t`, `  author` ↦ `a`,
`  year` ↦ `y`, `  doi` ↦ `d`, `}` ↦ none) independently of the embedded
field values. -/
def char2 (l : String) : Option Char := (l.data.drop 2).head?

/-- The last entry of `es` carrying the key `d`, i.e. the value a JS `Map`
holds under `d` after inserting every entry in order. -/
def lastKeyed (key : String → String) (d : String) (es : List String) : Option String :=
  es.reverse.find? (fun e => key e == d)

/-! ### Claim C7: splitter/extractor round-trip -/
/-- The field name occurs in the entry in one of the three quoting styles
(the corresponding pattern matches somewhere in the entry). -/
def fieldOccurs (entry name : List Char) : Bool :=
  (findBrace name entry).isSome || (findQuote name entry).isSome || (findBare name entry).isSome

/-- The raw captured value of the first style that matches, in the extractor's
brace → quote → bare precedence order. -/
def firstFieldMatch (entry name : List Char) : Option (List Char) :=
  match findBrace name entry with
  | some v => some v
  | none =>
    match findQuote name entry with
    | some v => some v
    | none => findBare name entry

/-! ### Claim C6: the entry splitter -/
/-- Brace-depth evaluation of a body at starting depth `d`: `none` when the
depth would reach zero strictly inside the body, otherwise the final depth.
`depthRun 1 b = some 1` says `b` is a balanced body — scanning `b ++ '}'`
from depth 1 closes exactly at the final brace. -/
def depthRun : Nat → List Char → Option Nat
  | d, [] => some d
  | d, c :: cs =>
    let d2 := if c = '{' then d + 1 else if c = '}' then d - 1 else d
    if d2 = 0 then none else depthRun d2 cs

/-- Well-formed bibliography texts, together with their list of top-level
entries: interleavings of `@`-free gap text and entries
`'@' :: header ++ '{' :: body ++ ['}']` whose header holds no `@` or `{` and
whose body is brace-balanced. -/
inductive WFBib : List Char → List (List Char) → Prop where
  | nil (g : List Char) : '@' ∉ g → WFBib g []
  | cons (g h b rest : List Char) (es : List (List Char)) :
      '@' ∉ g → '@' ∉ h → '{' ∉ h → depthRun 1 b = some 1 →
      WFBib rest es →
      WFBib (g ++ '@' :: (h ++ '{' :: (b ++ '}' :: rest)))
            (('@' :: (h ++ '{' :: (b ++ ['}']))) :: es)

/-- The word-ness of the first character (`false` for the empty list). -/
def headWS : List Char → Bool
  | [] => false
  | c :: _ => isWS c

/-- No two adjacent whitespace characters. -/
def noDbl : List Char → Bool
  | a :: b :: rest => !(isWS a && isWS b) && noDbl (b :: rest)
  | _ => true

/-- Whitespace discipline of a collapsed string: every whitespace character
is a plain space and no two of them are adjacent. -/
def wsTidy (l : List Char) : Bool :=
  l.all (fun c => !isWS c || c == ' ') && noDbl l

/-- Alternating word/non-word run lists starting with word-ness `w`: every
token is non-empty and uniform, and word-ness alternates. -/
inductive ValidRuns : Bool → List (List Char) → Prop where
  | nil (w : Bool) : ValidRuns w []
  | cons (w : Bool) (tok : List Char) (toks : List (List Char)) :
      tok ≠ [] → (∀ c ∈ tok, isWordChar c = w) → ValidRuns (!w) toks →
      ValidRuns w (tok :: toks)

/-- `capFirst` applied only when the flag is set (start of string). -/
def capIf (cap : Bool) (l : List Char) : List Char := if cap then capFirst l else l

/-! ### Claim C1: the worked APA example -/
set_option maxRecDepth 1000000

theorem toNat_ofNat_valid (n : Nat) (h : n.isValidChar) : (Char.ofNat n).toNat = n := by
  simp [Char.ofNat, h, Char.ofNatAux, Char.toNat]
  rfl

theorem lowerChar_toNat (c : Char) (h : isUpperAlpha c = true) :
    (lowerChar c).toNat = c.toNat + 32 := by
  simp only [isUpperAlpha, decide_eq_true_eq] at h
  have hv : (c.toNat + 32).isValidChar := Or.inl (by omega)
  simp [lowerChar, isUpperAlpha, h, toNat_ofNat_valid _ hv]

theorem lowerChar_of_not_upper (c : Char) (h : isUpperAlpha c = false) : lowerChar c = c := by
  rw [lowerChar, if_neg (by simp [h])]

theorem lowerChar_idem (c : Char) : lowerChar (lowerChar c) = lowerChar c := by
  by_cases h : isUpperAlpha c = true
  · have ht := lowerChar_toNat c h
    have hnu : isUpperAlpha (lowerChar c) = false := by
      simp only [isUpperAlpha, decide_eq_true_eq] at h
      simp only [isUpperAlpha, ht, decide_eq_false_iff_not]
      omega
    exact lowerChar_of_not_upper _ hnu
  · have h' : isUpperAlpha c = false := by simpa using h
    rw [lowerChar_of_not_upper c h', lowerChar_of_not_upper c h']

theorem isWordChar_lowerChar (c : Char) : isWordChar (lowerChar c) = isWordChar c := by
  by_cases h : isUpperAlpha c = true
  · have ht := lowerChar_toNat c h
    simp only [isUpperAlpha, decide_eq_true_eq] at h
    simp only [isWordChar, isLowerAlpha, isUpperAlpha, isDigitCh, ht]
    have hne : (lowerChar c == '_') = false := by
      rw [beq_eq_false_iff_ne]
      intro hEq
      have h95 : c.toNat + 32 = ('_' : Char).toNat := by rw [← ht, hEq]
      rw [show ('_' : Char).toNat = 95 from rfl] at h95
      omega
    have hne2 : (c == '_') = false := by
      rw [beq_eq_false_iff_ne]
      intro hEq
      have h95 : c.toNat = 95 := by rw [hEq]; rfl
      omega
    simp only [hne, hne2, Bool.or_false]
    have h1 : decide (97 ≤ c.toNat + 32 ∧ c.toNat + 32 ≤ 122) = true := by
      simp; omega
    have h2 : decide (97 ≤ c.toNat ∧ c.toNat ≤ 122) = false := by
      simp; omega
    have h3 : decide (65 ≤ c.toNat + 32 ∧ c.toNat + 32 ≤ 90) = false := by
      simp; omega
    have h4 : decide (65 ≤ c.toNat ∧ c.toNat ≤ 90) = true := by
      simp; omega
    have h5 : decide (48 ≤ c.toNat + 32 ∧ c.toNat + 32 ≤ 57) = false := by
      simp; omega
    have h6 : decide (48 ≤ c.toNat ∧ c.toNat ≤ 57) = false := by
      simp; omega
    simp [h1, h2, h3, h4, h5, h6]
  · rw [lowerChar, if_neg (by simp [h])]

/-- A non-word character is untouched by lower-casing. -/
theorem lowerChar_of_not_word (c : Char) (h : isWordChar c = false) : lowerChar c = c := by
  apply lowerChar_of_not_upper
  simp only [isWordChar, Bool.or_eq_false_iff] at h
  exact h.1.1.2

theorem map_lowerChar_idem (l : List Char) :
    (l.map lowerChar).map lowerChar = l.map lowerChar := by
  rw [List.map_map]
  exact List.map_congr_left fun c _ => lowerChar_idem c

theorem normDOIList_map_lowerChar (l : List Char) :
    (normDOIList l).map lowerChar = normDOIList l := by
  unfold normDOIList
  exact map_lowerChar_idem _

/-- C1: for a bibliography entry with author
`Wallis, Emily J. and Osborn, Timothy J. and Taylor, Michael`, year `2024`,
title `Quantifying exposure biases in early instrumental land surface air
temperature observations`, journal `International Journal of Climatology`,
volume `44`, number `5`, pages `1611-1635` and doi `10.1002/joc.8401`, the
APA formatter produces exactly the expected APA 7th reference string. -/
theorem claim1_apa_wallis_example :
    apaFromBibtexEntry "@article\x7bwallis2024,\n  author = \x7bWallis, Emily J. and Osborn, Timothy J. and Taylor, Michael\x7d,\n  title = \x7bQuantifying exposure biases in early instrumental land surface air temperature observations\x7d,\n  journal = \x7bInternational Journal of Climatology\x7d,\n  year = \x7b2024\x7d,\n  volume = \x7b44\x7d,\n  number = \x7b5\x7d,\n  pages = \x7b1611-1635\x7d,\n  doi = \x7b10.1002/joc.8401\x7d\n\x7d"
    = "Wallis, E. J., Osborn, T. J., & Taylor, M. (2024). Quantifying exposure biases in early instrumental land surface air temperature observations. International Journal of Climatology, 44(5), 1611–1635. https://doi.org/10.1002/joc.8401" := by
  decide

/-! ### Claim C5: DOI normalisation -/
/-- C5 counterexample: `normDOI` is not idempotent on every string — a second
application strips a second `doi:` label. -/
theorem claim5_counterexample :
    normDOI (normDOI "doi:doi:10.1002/joc.8401") ≠ normDOI "doi:doi:10.1002/joc.8401" := by
  decide

/-- C5 (amended): `normDOI` is idempotent on every string whose normalisation
is already free of leading whitespace, of a `doi.org` URL scheme, of a `doi:`
label, and of trailing punctuation (a second application can strip such
remnants again); and the three concrete case/prefix variants of the claim
normalize identically. -/
theorem claim5_idempotent_amended :
    (∀ s : String,
      jsTrim (normDOI s).data = (normDOI s).data →
      dropDoiScheme (normDOI s).data = (normDOI s).data →
      dropDoiLabel (normDOI s).data = (normDOI s).data →
      dropTrailPunct (normDOI s).data = (normDOI s).data →
      normDOI (normDOI s) = normDOI s) ∧
    (normDOI "10.1002/JOC.8401" = normDOI "https://doi.org/10.1002/joc.8401" ∧
     normDOI "https://doi.org/10.1002/joc.8401" = normDOI "doi:10.1002/joc.8401.") := by
  constructor
  · intro s h1 h2 h3 h4
    show (⟨normDOIList (normDOI s).data⟩ : String) = normDOI s
    unfold normDOIList
    rw [h1, h2, h3, h4]
    have : (normDOI s).data = normDOIList s.data := rfl
    rw [this, normDOIList_map_lowerChar]
    rfl
  · exact ⟨by decide, by decide⟩

/-- C5 witness: the conditional idempotence applied to the claim's own first
concrete DOI. -/
theorem claim5_witness :
    normDOI (normDOI "10.1002/JOC.8401") = normDOI "10.1002/JOC.8401" :=
  claim5_idempotent_amended.1 "10.1002/JOC.8401" (by decide) (by decide) (by decide) (by decide)

/-- C8 counterexample: with `year = {in press}` and `date = {2020-01-01}` the
code produces `n.d.` although the date field contains the run `2020`, so the
run-level fallback stated by the claim does not hold. -/
theorem claim8_counterexample :
    apaYearOf "@a\x7bk, year = \x7bin press\x7d, date = \x7b2020-01-01\x7d\x7d"
      ≠ apaYearRunFallback "@a\x7bk, year = \x7bin press\x7d, date = \x7b2020-01-01\x7d\x7d" ∧
    apaYearOf "@a\x7bk, year = \x7bin press\x7d, date = \x7b2020-01-01\x7d\x7d" = "n.d." ∧
    apaYearRunFallback "@a\x7bk, year = \x7bin press\x7d, date = \x7b2020-01-01\x7d\x7d" = "2020" := by
  refine ⟨by decide, by decide, by decide⟩

/-- C8 (amended): the year component falls back to the `date` field only when
the `year` field is empty, and is `n.d.` exactly when the chosen field
contains no four-digit run. -/
theorem claim8_year_field_fallback (entry : String) :
    apaYearOf entry = apaYearFieldFallback entry := by
  by_cases h : getBibField entry "year" = ""
  · simp [apaYearOf, apaYearFieldFallback, jsOr, h]
  · simp [apaYearOf, apaYearFieldFallback, jsOr, h]

/-- Two strings whose discriminating character differs are distinct, whatever
the embedded field values are. -/
theorem char2_discr {s t : String} (a b : Char) (hs : char2 s = some a)
    (ht : char2 t = some b) (hab : ¬a = b) : ¬s = t := fun h => by
  rw [h, ht] at hs
  exact hab (Option.some.inj hs.symm)

/-- Variant of `char2_discr` for the closing-brace line. -/
theorem char2_discr_none {s t : String} (a : Char) (hs : char2 s = some a)
    (ht : char2 t = none) : ¬s = t := fun h => by
  rw [h, ht] at hs
  exact Option.noConfusion hs

/-- C3 counterexample: a record with an empty title still yields an entry
with a `title` field (`title = {}`), so the title field is not included
"only if the source value is non-empty". -/
theorem claim3_counterexample :
    ("  title = \x7b\x7d," ∈ bibtexLines ⟨"", "X. Author", "2020", "10.1/z"⟩) ∧
    (Pub.mk "" "X. Author" "2020" "10.1/z").title = "" ∧
    bibtexFromPub ⟨"", "X. Author", "2020", "10.1/z"⟩
      = "@article\x7b2020-,\n  title = \x7b\x7d,\n  author = \x7bX. Author\x7d,\n  year = \x7b2020\x7d,\n  doi = \x7b10.1/z\x7d,\n\x7d" := by
  refine ⟨by decide, rfl, by decide⟩

/-- C3 (amended): the synthesized entry is wrapped in `@article{key, ... }`;
the `author` and `year` lines are present exactly when the record's value is
non-empty and the `doi` line exactly when the normalized DOI is non-empty,
but the `title` line is always present, even for an empty title. -/
theorem claim3_fields_amended (pub : Pub) :
    bibtexFromPub pub = String.intercalate "\n" (bibtexLines pub) ∧
    (bibtexLines pub).headD "" = "@article\x7b" ++ bibtexKey pub ++ "," ∧
    (bibtexLines pub).getLastD "" = "\x7d" ∧
    ("  title = \x7b" ++ pub.title ++ "\x7d,") ∈ bibtexLines pub ∧
    (("  author = \x7b" ++ pub.authors ++ "\x7d,") ∈ bibtexLines pub ↔ pub.authors ≠ "") ∧
    (("  year = \x7b" ++ pub.year ++ "\x7d,") ∈ bibtexLines pub ↔ pub.year ≠ "") ∧
    (("  doi = \x7b" ++ normDOI pub.doi ++ "\x7d,") ∈ bibtexLines pub ↔ normDOI pub.doi ≠ "") := by
  refine ⟨rfl, rfl, ?_, ?_, ?_, ?_, ?_⟩ <;>
    by_cases ha : pub.authors = "" <;> by_cases hy : pub.year = "" <;>
      by_cases hd : normDOI pub.doi = "" <;>
    simp only [bibtexLines, ha, hy, hd, ne_eq, not_true_eq_false, not_false_eq_true,
      if_true, if_false, ite_true, ite_false, List.cons_append, List.nil_append,
      List.mem_cons, List.mem_singleton, List.not_mem_nil, or_false, false_or,
      iff_true, iff_false, not_or] <;>
    first
    | rfl
    | (simp; done)
    | ((repeat' apply And.intro) <;>
       (first
        | exact char2_discr 'a' 'r' rfl rfl (by decide)
        | exact char2_discr 'a' 't' rfl rfl (by decide)
        | exact char2_discr 'a' 'y' rfl rfl (by decide)
        | exact char2_discr 'a' 'd' rfl rfl (by decide)
        | exact char2_discr 'y' 'r' rfl rfl (by decide)
        | exact char2_discr 'y' 't' rfl rfl (by decide)
        | exact char2_discr 'y' 'a' rfl rfl (by decide)
        | exact char2_discr 'y' 'd' rfl rfl (by decide)
        | exact char2_discr 'd' 'r' rfl rfl (by decide)
        | exact char2_discr 'd' 't' rfl rfl (by decide)
        | exact char2_discr 'd' 'a' rfl rfl (by decide)
        | exact char2_discr 'd' 'y' rfl rfl (by decide)
        | exact char2_discr_none 'a' rfl rfl
        | exact char2_discr_none 'y' rfl rfl
        | exact char2_discr_none 'd' rfl rfl))

/-! ### Map lemmas and the index characterisation (claims C2, C9, C10) -/
theorem mapGet_mapSet (k v d : String) (m : List (String × String)) :
    mapGet d (mapSet k v m) = if d = k then some v else mapGet d m := by
  induction m with
  | nil =>
    simp only [mapSet, mapGet]
    by_cases h : d = k
    · rw [if_pos h.symm, if_pos h]
    · rw [if_neg (fun hc => h hc.symm), if_neg h]
  | cons hd tl ih =>
    obtain ⟨k', v'⟩ := hd
    simp only [mapSet]
    by_cases h1 : k' = k
    · rw [if_pos h1]
      subst h1
      simp only [mapGet]
      by_cases h2 : d = k'
      · rw [if_pos h2.symm, if_pos h2]
      · rw [if_neg (fun hc => h2 hc.symm), if_neg h2, if_neg (fun hc => h2 hc.symm)]
    · rw [if_neg h1]
      simp only [mapGet]
      by_cases h2 : k' = d
      · rw [if_pos h2, if_neg (fun hc => h1 (h2.trans hc)), if_pos h2]
      · rw [if_neg h2, if_neg h2, ih]

theorem mapGet_mem_values (d v : String) (m : List (String × String))
    (h : mapGet d m = some v) : v ∈ m.map Prod.snd := by
  induction m with
  | nil => exact absurd h (by simp [mapGet])
  | cons hd tl ih =>
    obtain ⟨k', v'⟩ := hd
    simp only [mapGet] at h
    by_cases h1 : k' = d
    · rw [if_pos h1] at h
      simp [Option.some.inj h]
    · rw [if_neg h1] at h
      simp [ih h]

theorem mem_keys_mapSet (k v d : String) (m : List (String × String)) :
    d ∈ (mapSet k v m).map Prod.fst ↔ d = k ∨ d ∈ m.map Prod.fst := by
  induction m with
  | nil => simp [mapSet]
  | cons hd tl ih =>
    obtain ⟨k', v'⟩ := hd
    simp only [mapSet]
    by_cases h1 : k' = k
    · subst h1
      rw [if_pos rfl]
      simp only [List.map_cons, List.mem_cons]
      tauto
    · rw [if_neg h1]
      simp only [List.map_cons, List.mem_cons, ih]
      tauto

theorem keys_nodup_mapSet (k v : String) (m : List (String × String))
    (h : (m.map Prod.fst).Nodup) : ((mapSet k v m).map Prod.fst).Nodup := by
  induction m with
  | nil => simp [mapSet]
  | cons hd tl ih =>
    obtain ⟨k', v'⟩ := hd
    simp only [List.map_cons, List.nodup_cons] at h
    simp only [mapSet]
    by_cases h1 : k' = k
    · subst h1
      rw [if_pos rfl]
      simp only [List.map_cons, List.nodup_cons]
      exact h
    · rw [if_neg h1]
      simp only [List.map_cons, List.nodup_cons]
      refine ⟨fun hmem => ?_, ih h.2⟩
      rcases (mem_keys_mapSet k v k' tl).1 hmem with hc | hc
      · exact h1 hc
      · exact h.1 hc

theorem lastKeyed_cons (key : String → String) (d : String) (e : String) (es : List String) :
    lastKeyed key d (e :: es)
      = (lastKeyed key d es).or (if key e == d then some e else none) := by
  simp only [lastKeyed, List.reverse_cons, List.find?_append]
  congr 1
  show List.find? (fun x => key x == d) [e] = _
  simp only [List.find?]
  by_cases hbe : key e = d
  · rw [beq_iff_eq.mpr hbe]
    rfl
  · rw [beq_eq_false_iff_ne.mpr hbe]
    rfl

theorem bibStep_fst_mapGet (dm tm : List (String × String)) (e : String) (d : String)
    (hd : d ≠ "") :
    mapGet d (bibStep (dm, tm) e).1
      = (if doiKeyOf e == d then some e else none).or (mapGet d dm) := by
  simp only [bibStep]
  by_cases h1 : doiKeyOf e = ""
  · rw [if_neg (show ¬(doiKeyOf e ≠ "") from fun hne => hne h1)]
    have hb : (doiKeyOf e == d) = false := by
      rw [beq_eq_false_iff_ne]
      intro hc
      exact hd (hc.symm.trans h1)
    rw [hb]
    simp [Option.or]
  · rw [if_pos h1, mapGet_mapSet]
    by_cases h2 : d = doiKeyOf e
    · rw [if_pos h2]
      have hb : (doiKeyOf e == d) = true := by rw [beq_iff_eq]; exact h2.symm
      rw [hb]
      simp [Option.or]
    · rw [if_neg h2]
      have hb : (doiKeyOf e == d) = false := by
        rw [beq_eq_false_iff_ne]
        intro hc
        exact h2 hc.symm
      rw [hb]
      simp [Option.or]

theorem bibStep_snd_mapGet (dm tm : List (String × String)) (e : String) (d : String)
    (hd : d ≠ "") :
    mapGet d (bibStep (dm, tm) e).2
      = (if titleKeyOf e == d then some e else none).or (mapGet d tm) := by
  simp only [bibStep]
  by_cases h1 : titleKeyOf e = ""
  · rw [if_neg (show ¬(titleKeyOf e ≠ "") from fun hne => hne h1)]
    have hb : (titleKeyOf e == d) = false := by
      rw [beq_eq_false_iff_ne]
      intro hc
      exact hd (hc.symm.trans h1)
    rw [hb]
    simp [Option.or]
  · rw [if_pos h1, mapGet_mapSet]
    by_cases h2 : d = titleKeyOf e
    · rw [if_pos h2]
      have hb : (titleKeyOf e == d) = true := by rw [beq_iff_eq]; exact h2.symm
      rw [hb]
      simp [Option.or]
    · rw [if_neg h2]
      have hb : (titleKeyOf e == d) = false := by
        rw [beq_eq_false_iff_ne]
        intro hc
        exact h2 hc.symm
      rw [hb]
      simp [Option.or]

theorem foldl_bibStep_fst (es : List String) (dm tm : List (String × String)) (d : String)
    (hd : d ≠ "") :
    mapGet d ((es.foldl bibStep (dm, tm)).1)
      = (lastKeyed doiKeyOf d es).or (mapGet d dm) := by
  induction es generalizing dm tm with
  | nil => simp [lastKeyed, List.find?]
  | cons e es ih =>
    rcases hb : bibStep (dm, tm) e with ⟨dm2, tm2⟩
    rw [List.foldl_cons, hb, ih, lastKeyed_cons, Option.or_assoc]
    congr 1
    have := bibStep_fst_mapGet dm tm e d hd
    rw [hb] at this
    exact this

theorem foldl_bibStep_snd (es : List String) (dm tm : List (String × String)) (d : String)
    (hd : d ≠ "") :
    mapGet d ((es.foldl bibStep (dm, tm)).2)
      = (lastKeyed titleKeyOf d es).or (mapGet d tm) := by
  induction es generalizing dm tm with
  | nil => simp [lastKeyed, List.find?]
  | cons e es ih =>
    rcases hb : bibStep (dm, tm) e with ⟨dm2, tm2⟩
    rw [List.foldl_cons, hb, ih, lastKeyed_cons, Option.or_assoc]
    congr 1
    have := bibStep_snd_mapGet dm tm e d hd
    rw [hb] at this
    exact this

theorem foldl_bibStep_empty_key (es : List String) (dm tm : List (String × String)) :
    mapGet "" ((es.foldl bibStep (dm, tm)).1) = mapGet "" dm ∧
    mapGet "" ((es.foldl bibStep (dm, tm)).2) = mapGet "" tm := by
  induction es generalizing dm tm with
  | nil => exact ⟨rfl, rfl⟩
  | cons e es ih =>
    rcases hb : bibStep (dm, tm) e with ⟨dm2, tm2⟩
    rw [List.foldl_cons, hb]
    refine ⟨(ih dm2 tm2).1.trans ?_, (ih dm2 tm2).2.trans ?_⟩
    · have := congrArg Prod.fst hb
      simp only [bibStep] at this
      rw [← this]
      by_cases h1 : doiKeyOf e = ""
      · rw [if_neg (show ¬(doiKeyOf e ≠ "") from fun hne => hne h1)]
      · rw [if_pos h1, mapGet_mapSet, if_neg (fun hc => h1 hc.symm)]
    · have := congrArg Prod.snd hb
      simp only [bibStep] at this
      rw [← this]
      by_cases h1 : titleKeyOf e = ""
      · rw [if_neg (show ¬(titleKeyOf e ≠ "") from fun hne => hne h1)]
      · rw [if_pos h1, mapGet_mapSet, if_neg (fun hc => h1 hc.symm)]

theorem foldl_bibStep_nodup (es : List String) (dm tm : List (String × String))
    (h1 : (dm.map Prod.fst).Nodup) (h2 : (tm.map Prod.fst).Nodup) :
    (((es.foldl bibStep (dm, tm)).1.map Prod.fst).Nodup ∧
     ((es.foldl bibStep (dm, tm)).2.map Prod.fst).Nodup) := by
  induction es generalizing dm tm with
  | nil => exact ⟨h1, h2⟩
  | cons e es ih =>
    rcases hb : bibStep (dm, tm) e with ⟨dm2, tm2⟩
    rw [List.foldl_cons, hb]
    refine ih dm2 tm2 ?_ ?_
    · have := congrArg Prod.fst hb
      simp only [bibStep] at this
      rw [← this]
      by_cases hk : doiKeyOf e = ""
      · rw [if_neg (show ¬(doiKeyOf e ≠ "") from fun hne => hne hk)]
        exact h1
      · rw [if_pos hk]
        exact keys_nodup_mapSet _ _ _ h1
    · have := congrArg Prod.snd hb
      simp only [bibStep] at this
      rw [← this]
      by_cases hk : titleKeyOf e = ""
      · rw [if_neg (show ¬(titleKeyOf e ≠ "") from fun hne => hne hk)]
        exact h2
      · rw [if_pos hk]
        exact keys_nodup_mapSet _ _ _ h2

theorem buildBibIndex_doi_lookup (bib : String) (d : String) :
    mapGet d (buildBibIndex bib).byDOI
      = if d = "" then none else lastKeyed doiKeyOf d (splitBibEntries bib) := by
  by_cases h : d = ""
  · subst h
    rw [if_pos rfl]
    exact (foldl_bibStep_empty_key (splitBibEntries bib) [] []).1
  · rw [if_neg h]
    have := foldl_bibStep_fst (splitBibEntries bib) [] [] d h
    rw [show mapGet d ([] : List (String × String)) = none from rfl, Option.or_none] at this
    exact this

theorem buildBibIndex_title_lookup (bib : String) (d : String) :
    mapGet d (buildBibIndex bib).byTitle
      = if d = "" then none else lastKeyed titleKeyOf d (splitBibEntries bib) := by
  by_cases h : d = ""
  · subst h
    rw [if_pos rfl]
    exact (foldl_bibStep_empty_key (splitBibEntries bib) [] []).2
  · rw [if_neg h]
    have := foldl_bibStep_snd (splitBibEntries bib) [] [] d h
    rw [show mapGet d ([] : List (String × String)) = none from rfl, Option.or_none] at this
    exact this

theorem fuzzy_foldl_cases (t : String) (l : List (String × String)) (b : String × Nat) :
    (l.foldl (fuzzyStep t) b).1 = b.1 ∨ (l.foldl (fuzzyStep t) b).1 ∈ l.map Prod.snd := by
  induction l generalizing b with
  | nil => exact Or.inl rfl
  | cons kv l ih =>
    rw [List.foldl_cons]
    rcases ih (fuzzyStep t b kv) with h | h
    · rw [h]
      simp only [fuzzyStep]
      by_cases h1 : (jsIncludes kv.1 t || jsIncludes t kv.1) = true
      · rw [if_pos h1]
        by_cases h2 : b.2 < min kv.1.length t.length
        · rw [if_pos h2]
          exact Or.inr (by simp)
        · rw [if_neg h2]
          exact Or.inl rfl
      · rw [if_neg h1]
        exact Or.inl rfl
    · exact Or.inr (by simp [h])

/-! ### Claim C9: the index invariant -/
/-- C9: for every bibliography text, `buildBibIndex` preserves the entry
sequence, its two maps have duplicate-free key sets (each key appears exactly
once), and looking up any key returns the last entry in source order whose
normalized DOI (resp. title) equals that key — in particular the empty key is
never present, so entries lacking a DOI (resp. title) appear in no map and
remain reachable only through the entry sequence. -/
theorem claim9_index_invariant (bib : String) (d : String) :
    (buildBibIndex bib).entries = splitBibEntries bib ∧
    ((buildBibIndex bib).byDOI.map Prod.fst).Nodup ∧
    ((buildBibIndex bib).byTitle.map Prod.fst).Nodup ∧
    mapGet d (buildBibIndex bib).byDOI
      = (if d = "" then none else lastKeyed doiKeyOf d (splitBibEntries bib)) ∧
    mapGet d (buildBibIndex bib).byTitle
      = (if d = "" then none else lastKeyed titleKeyOf d (splitBibEntries bib)) := by
  refine ⟨rfl, ?_, ?_, buildBibIndex_doi_lookup bib d, buildBibIndex_title_lookup bib d⟩
  · exact (foldl_bibStep_nodup (splitBibEntries bib) [] [] (by simp) (by simp)).1
  · exact (foldl_bibStep_nodup (splitBibEntries bib) [] [] (by simp) (by simp)).2

/-! ### Claim C2: DOI lookup short-circuits -/
/-- C2: whenever the built index's DOI map holds an entry under the record's
normalized DOI, the resolver returns exactly that entry, never consulting the
title maps — even if the index also holds a different entry under the
record's normalized title. -/
theorem claim2_doi_short_circuit (bib : String) (pub : Pub) (e : String)
    (h : mapGet (normDOI pub.doi) (buildBibIndex bib).byDOI = some e) :
    findBibEntryFor (some (buildBibIndex bib)) (some pub) = e := by
  have hne : normDOI pub.doi ≠ "" := by
    intro h0
    have hl := buildBibIndex_doi_lookup bib ""
    rw [if_pos rfl] at hl
    rw [h0, hl] at h
    exact Option.noConfusion h
  show (match (if normDOI (pubDoi (some pub)) = "" then none
               else mapGet (normDOI (pubDoi (some pub))) (buildBibIndex bib).byDOI) with
        | some e => e
        | none => _) = e
  rw [show pubDoi (some pub) = pub.doi from rfl, if_neg hne, h]

/-- C2 witness: a concrete index holding the record's DOI under one entry and
the record's exact normalized title under a different entry returns the DOI
match. -/
theorem claim2_witness :
    findBibEntryFor
        (some (buildBibIndex "@a\x7bk1, doi = \x7b10.1/x\x7d, title = \x7bAlpha\x7d\x7d@b\x7bk2, title = \x7bBeta\x7d\x7d"))
        (some ⟨"Beta", "", "", "10.1/X"⟩)
      = "@a\x7bk1, doi = \x7b10.1/x\x7d, title = \x7bAlpha\x7d\x7d" :=
  claim2_doi_short_circuit "@a\x7bk1, doi = \x7b10.1/x\x7d, title = \x7bAlpha\x7d\x7d@b\x7bk2, title = \x7bBeta\x7d\x7d"
    ⟨"Beta", "", "", "10.1/X"⟩ "@a\x7bk1, doi = \x7b10.1/x\x7d, title = \x7bAlpha\x7d\x7d" (by decide)

/-! ### Claim C10: the resolver is total -/
/-- C10: the resolver never fails: with no index built it returns the
no-match signal `""` for every record (including a null one), and with any
index it returns either `""` or an entry stored in one of the index's maps. -/
theorem claim10_resolver_total :
    (∀ pub : Option Pub, findBibEntryFor none pub = "") ∧
    ∀ (bi : BibIndex) (pub : Option Pub),
      findBibEntryFor (some bi) pub = "" ∨
      findBibEntryFor (some bi) pub ∈ bi.byDOI.map Prod.snd ∨
      findBibEntryFor (some bi) pub ∈ bi.byTitle.map Prod.snd := by
  refine ⟨fun _ => rfl, fun bi pub => ?_⟩
  have hunfold : findBibEntryFor (some bi) pub
      = (match (if normDOI (pubDoi pub) = "" then none
                else mapGet (normDOI (pubDoi pub)) bi.byDOI) with
         | some e => e
         | none =>
           match (if normalizeTitle (pubTitle pub) = "" then none
                  else mapGet (normalizeTitle (pubTitle pub)) bi.byTitle) with
           | some e => e
           | none =>
             if normalizeTitle (pubTitle pub) = "" then ""
             else (bi.byTitle.foldl (fuzzyStep (normalizeTitle (pubTitle pub))) ("", 0)).1) := rfl
  rw [hunfold]
  cases hd : (if normDOI (pubDoi pub) = "" then none
              else mapGet (normDOI (pubDoi pub)) bi.byDOI) with
  | none =>
    cases ht : (if normalizeTitle (pubTitle pub) = "" then none
                else mapGet (normalizeTitle (pubTitle pub)) bi.byTitle) with
    | none =>
      by_cases hte : normalizeTitle (pubTitle pub) = ""
      · rw [if_pos hte]
        exact Or.inl rfl
      · rw [if_neg hte]
        rcases fuzzy_foldl_cases (normalizeTitle (pubTitle pub)) bi.byTitle ("", 0) with h | h
        · exact Or.inl h
        · exact Or.inr (Or.inr h)
    | some e =>
      refine Or.inr (Or.inr ?_)
      have hm : mapGet (normalizeTitle (pubTitle pub)) bi.byTitle = some e := by
        by_cases hte : normalizeTitle (pubTitle pub) = ""
        · rw [if_pos hte] at ht
          exact Option.noConfusion ht
        · rw [if_neg hte] at ht
          exact ht
      exact mapGet_mem_values _ _ _ hm
  | some e =>
    refine Or.inr (Or.inl ?_)
    have hm : mapGet (normDOI (pubDoi pub)) bi.byDOI = some e := by
      by_cases hde : normDOI (pubDoi pub) = ""
      · rw [if_pos hde] at hd
        exact Option.noConfusion hd
      · rw [if_neg hde] at hd
        exact hd
    exact mapGet_mem_values _ _ _ hm

theorem mem_dropWhile_of_not (p : Char → Bool) (c : Char) (l : List Char)
    (hc : p c = false) (h : c ∈ l) : c ∈ l.dropWhile p := by
  induction l with
  | nil => exact absurd h (List.not_mem_nil c)
  | cons a l ih =>
    by_cases ha : p a = true
    · rw [List.dropWhile_cons_of_pos ha]
      rcases List.mem_cons.1 h with h1 | h1
    
      · rw [h1] at hc
        rw [hc] at ha
        exact Bool.noConfusion ha
      · exact ih h1
    · rw [List.dropWhile_cons_of_neg ha]
      exact h

theorem mem_jsTrim (c : Char) (l : List Char) (h : c ∈ l) (hw : isWS c = false) :
    c ∈ jsTrim l := by
  unfold jsTrim
  rw [List.mem_reverse]
  apply mem_dropWhile_of_not _ _ _ hw
  rw [List.mem_reverse]
  exact mem_dropWhile_of_not _ _ _ hw h

theorem mem_postTrimComma (c : Char) (l : List Char) (h : c ∈ l)
    (hw : isWS c = false) (hc : c ≠ ',') : c ∈ postTrimComma l := by
  have ht : c ∈ jsTrim l := mem_jsTrim c l h hw
  show c ∈ (match (jsTrim l).reverse with
            | ',' :: r => r.reverse
            | _ => jsTrim l)
  split
  · next r heq =>
    have : jsTrim l = r.reverse ++ [','] := by
      have := congrArg List.reverse heq
      simpa using this
    rw [this] at ht
    rcases List.mem_append.1 ht with h1 | h1
    · exact h1
    · exact absurd (List.mem_singleton.1 h1) hc
  · exact ht

/-- C7 counterexample: the splitter returns the entry `@a{k, title = {}}`
verbatim; the `title` field occurs in it (brace style), yet the extractor
returns the empty string because the captured value is empty. -/
theorem claim7_counterexample :
    ("@a\x7bk, title = \x7b\x7d\x7d" ∈ splitBibEntries "@a\x7bk, title = \x7b\x7d\x7d") ∧
    fieldOccurs "@a\x7bk, title = \x7b\x7d\x7d".data "title".data = true ∧
    getBibField "@a\x7bk, title = \x7b\x7d\x7d" "title" = "" := by
  refine ⟨by decide, by decide, by decide⟩

/-- C7 (amended): for every entry produced by the splitter and every field
name whose first matching style captures a value containing at least one
character that is neither whitespace nor a comma, the extractor returns a
non-empty string. -/
theorem claim7_roundtrip_amended (text e : String) (name v : List Char) (c : Char)
    (hmem : e ∈ splitBibEntries text)
    (hmatch : firstFieldMatch e.data name = some v)
    (hcv : c ∈ v) (hw : isWS c = false) (hcomma : c ≠ ',') :
    getBibField e ⟨name⟩ ≠ "" := by
  have hne : getBibFieldList e.data name ≠ [] := by
    unfold getBibFieldList
    unfold firstFieldMatch at hmatch
    cases hb : findBrace name e.data with
    | some v2 =>
      rw [hb] at hmatch
      have hv : v2 = v := Option.some.inj hmatch
      subst hv
      exact List.ne_nil_of_mem (mem_postTrimComma c v2 hcv hw hcomma)
    | none =>
      rw [hb] at hmatch
      have hmatch2 : (match findQuote name e.data with
                      | some v2 => some v2
                      | none => findBare name e.data) = some v := hmatch
      show (match findQuote name e.data with
            | some v2 => postTrimComma v2
            | none =>
              match findBare name e.data with
              | some v2 => jsTrim v2
              | none => []) ≠ []
      cases hq : findQuote name e.data with
      | some v2 =>
        rw [hq] at hmatch2
        have hv : v2 = v := Option.some.inj hmatch2
        subst hv
        exact List.ne_nil_of_mem (mem_postTrimComma c v2 hcv hw hcomma)
      | none =>
        rw [hq] at hmatch2
        have hbare : findBare name e.data = some v := hmatch2
        show (match findBare name e.data with
              | some v2 => jsTrim v2
              | none => []) ≠ []
        rw [hbare]
        exact List.ne_nil_of_mem (mem_jsTrim c v hcv hw)
  intro hcontra
  apply hne
  have h2 : (⟨getBibFieldList e.data name⟩ : String) = ⟨[]⟩ := hcontra
  exact congrArg String.data h2

/-- C7 witness: a concrete brace-style field with value `Hello` extracted
from the entry the splitter itself produced. -/
theorem claim7_witness : getBibField "@a\x7bk, title = \x7bHello\x7d\x7d" "title" ≠ "" :=
  claim7_roundtrip_amended "@a\x7bk, title = \x7bHello\x7d\x7d" "@a\x7bk, title = \x7bHello\x7d\x7d"
    "title".data "Hello".data 'H' (by decide) (by decide) (by decide) (by decide) (by decide)

theorem spGo_seek_skip (g r : List Char) (hg : '@' ∉ g) :
    spGo SpState.seek (g ++ r) = spGo SpState.seek r := by
  induction g with
  | nil => rfl
  | cons c g ih =>
    have hc : ¬c = '@' := fun hc => hg (hc ▸ List.mem_cons_self c g)
    have hg2 : '@' ∉ g := fun hm => hg (List.mem_cons_of_mem c hm)
    show (if c = '@' then spGo (SpState.header ['@']) (g ++ r)
          else spGo SpState.seek (g ++ r)) = spGo SpState.seek r
    rw [if_neg hc]
    exact ih hg2

theorem spGo_header_skip (h r : List Char) (acc : List Char) (hh : '{' ∉ h) :
    spGo (SpState.header acc) (h ++ '{' :: r)
      = spGo (SpState.body 1 ('{' :: (h.reverse ++ acc))) r := by
  induction h generalizing acc with
  | nil =>
    show (if '{' = '{' then spGo (SpState.body 1 ('{' :: acc)) r
          else spGo (SpState.header ('{' :: acc)) r) = _
    rw [if_pos rfl]
    rfl
  | cons c h ih =>
    have hc : ¬c = '{' := fun hc => hh (hc ▸ List.mem_cons_self c h)
    have hh2 : '{' ∉ h := fun hm => hh (List.mem_cons_of_mem c hm)
    show (if c = '{' then spGo (SpState.body 1 ('{' :: acc)) (h ++ '{' :: r)
          else spGo (SpState.header (c :: acc)) (h ++ '{' :: r)) = _
    rw [if_neg hc, ih (c :: acc) hh2]
    simp [List.reverse_cons, List.append_assoc]

theorem spGo_body_close (b : List Char) (d : Nat) (acc r : List Char)
    (hb : depthRun d b = some 1) :
    spGo (SpState.body d acc) (b ++ '}' :: r)
      = ('}' :: (b.reverse ++ acc)).reverse :: spGo SpState.seek r := by
  induction b generalizing d acc with
  | nil =>
    have hd : d = 1 := by
      have : some d = some 1 := hb
      exact Option.some.inj this
    subst hd
    show (if (if '}' = '{' then 1 + 1 else if '}' = '}' then 1 - 1 else 1) = 0 then
            ('}' :: acc).reverse :: spGo SpState.seek r
          else spGo (SpState.body (if '}' = '{' then 1 + 1 else if '}' = '}' then 1 - 1 else 1)
            ('}' :: acc)) r) = _
    simp
  | cons c b ih =>
    have hsplit : ¬(if c = '{' then d + 1 else if c = '}' then d - 1 else d) = 0 ∧
        depthRun (if c = '{' then d + 1 else if c = '}' then d - 1 else d) b = some 1 := by
      have hb2 : (if (if c = '{' then d + 1 else if c = '}' then d - 1 else d) = 0 then none
                  else depthRun (if c = '{' then d + 1 else if c = '}' then d - 1 else d) b)
          = some 1 := hb
      by_cases h0 : (if c = '{' then d + 1 else if c = '}' then d - 1 else d) = 0
      · rw [if_pos h0] at hb2
        exact absurd hb2 (by simp)
      · rw [if_neg h0] at hb2
        exact ⟨h0, hb2⟩
    show (if (if c = '{' then d + 1 else if c = '}' then d - 1 else d) = 0 then
            (c :: acc).reverse :: spGo SpState.seek (b ++ '}' :: r)
          else spGo (SpState.body (if c = '{' then d + 1 else if c = '}' then d - 1 else d)
            (c :: acc)) (b ++ '}' :: r)) = _
    rw [if_neg hsplit.1, ih _ _ hsplit.2]
    simp [List.reverse_cons, List.append_assoc]

/-- C6: on every well-formed bibliography text the splitter returns exactly
the list of top-level entries — one entry per top-level `@`, each a
contiguous slice from its `@` to its balanced closing brace, in source order
(and the empty text yields the empty list, via `WFBib.nil`). -/
theorem spGo_of_wf (t : List Char) (entries : List (List Char)) (hwf : WFBib t entries) :
    spGo SpState.seek t = entries := by
  induction hwf with
  | nil g hg =>
    rw [show g = g ++ [] from (List.append_nil g).symm, spGo_seek_skip g [] hg]
    rfl
  | cons g h b rest es hg hh hhb hbal _ ih =>
    rw [spGo_seek_skip _ _ hg]
    show spGo SpState.seek ('@' :: (h ++ '{' :: (b ++ '}' :: rest))) = _
    rw [show spGo SpState.seek ('@' :: (h ++ '{' :: (b ++ '}' :: rest)))
        = spGo (SpState.header ['@']) (h ++ '{' :: (b ++ '}' :: rest)) by
      show (if '@' = '@' then _ else _) = _
      rw [if_pos rfl]]
    rw [spGo_header_skip h _ ['@'] hhb, spGo_body_close b 1 _ rest hbal, ih]
    simp [List.reverse_cons, List.append_assoc]

/-- C6: on every well-formed bibliography text the splitter returns exactly
the list of top-level entries — one entry per top-level `@`, each a
contiguous slice from its `@` to its balanced closing brace, in source order
(and the empty text yields the empty list, via `WFBib.nil`). -/
theorem claim6_splitter_wellformed (text : String) (entries : List (List Char))
    (hwf : WFBib text.data entries) :
    splitBibEntries text = entries.map String.mk := by
  show (splitBibEntriesList text.data).map String.mk = entries.map String.mk
  rw [show splitBibEntriesList text.data = spGo SpState.seek text.data from rfl,
    spGo_of_wf text.data entries hwf]

/-- C6 witness: a concrete well-formed text with one entry between gap text,
and the empty text. -/
theorem claim6_witness :
    splitBibEntries "x @art\x7bkey,\x7d y" = ["@art\x7bkey,\x7d"] ∧ splitBibEntries "" = [] := by
  constructor
  · have hwf : WFBib ("x @art\x7bkey,\x7d y".data)
        [('@' :: ("art".data ++ '{' :: ("key,".data ++ ['}'])))] :=
      WFBib.cons "x ".data "art".data "key,".data " y".data []
        (by decide) (by decide) (by decide) (by decide) (WFBib.nil " y".data (by decide))
    exact (claim6_splitter_wellformed "x @art\x7bkey,\x7d y" _ hwf).trans (by decide)
  · exact (claim6_splitter_wellformed "" [] (WFBib.nil [] (by decide))).trans rfl

/-! ### Claim C4: sentence-casing — infrastructure -/
theorem upperChar_toNat (c : Char) (h : isLowerAlpha c = true) :
    (upperChar c).toNat = c.toNat - 32 := by
  simp only [isLowerAlpha, decide_eq_true_eq] at h
  have hv : (c.toNat - 32).isValidChar := Or.inl (by omega)
  simp [upperChar, isLowerAlpha, h, toNat_ofNat_valid _ hv]

theorem isWordChar_upperChar (c : Char) (h : isLowerAlpha c = true) :
    isWordChar (upperChar c) = true := by
  have ht := upperChar_toNat c h
  simp only [isLowerAlpha, decide_eq_true_eq] at h
  have hu : isUpperAlpha (upperChar c) = true := by
    simp only [isUpperAlpha, decide_eq_true_eq, ht]
    omega
  simp [isWordChar, hu]

theorem not_lower_of_not_word (c : Char) (h : isWordChar c = false) :
    isLowerAlpha c = false := by
  simp only [isWordChar, Bool.or_eq_false_iff] at h
  exact h.1.1.1

theorem not_ws_of_word (c : Char) (h : isWordChar c = true) : isWS c = false := by
  by_cases hw : isWS c = true
  · simp only [isWS, Bool.or_eq_true, beq_iff_eq] at hw
    rcases hw with ((((h1 | h1) | h1) | h1) | h1) | h1 <;> subst h1 <;>
      exact absurd h (by decide)
  · simpa using hw

theorem not_colon_of_word (c : Char) (h : isWordChar c = true) : c ≠ ':' := by
  intro hc
  subst hc
  exact absurd h (by decide)

theorem capFirst_cons_not_lower (c : Char) (r : List Char) (h : isLowerAlpha c = false) :
    capFirst (c :: r) = c :: r := by
  simp [capFirst, h]

theorem capFirst_append (a b : List Char) (ha : a ≠ []) :
    capFirst (a ++ b) = capFirst a ++ b := by
  cases a with
  | nil => exact absurd rfl ha
  | cons c r =>
    by_cases h : isLowerAlpha c = true <;> simp [capFirst, h]

theorem ccGo_app_noColon (a z : List Char) (h : ∀ c ∈ a, ¬c = ':') :
    ccGo CCSt.norm (a ++ z) = a ++ ccGo CCSt.norm z := by
  induction a with
  | nil => rfl
  | cons c a ih =>
    have hc : ¬c = ':' := h c (List.mem_cons_self c a)
    show (if c = ':' then ccGo (CCSt.pend []) (a ++ z) else c :: ccGo CCSt.norm (a ++ z))
        = (c :: a) ++ ccGo CCSt.norm z
    rw [if_neg hc, ih (fun x hx => h x (List.mem_cons_of_mem c hx))]
    rfl

theorem ccGo_letterFree (a : List Char) (h : ∀ c ∈ a, isLowerAlpha c = false) :
    ccGo CCSt.norm a = a ∧ ∀ ws, ccGo (CCSt.pend ws) a = ':' :: ws.reverse ++ a := by
  induction a with
  | nil => exact ⟨rfl, fun ws => by simp [ccGo]⟩
  | cons c a ih =>
    have hc : isLowerAlpha c = false := h c (List.mem_cons_self c a)
    have ih2 := ih (fun x hx => h x (List.mem_cons_of_mem c hx))
    constructor
    · show (if c = ':' then ccGo (CCSt.pend []) a else c :: ccGo CCSt.norm a) = c :: a
      by_cases hcol : c = ':'
      · rw [if_pos hcol, ih2.2 []]
        subst hcol
        rfl
      · rw [if_neg hcol, ih2.1]
    · intro ws
      show (if c = ':' then (':' :: ws.reverse) ++ ccGo (CCSt.pend []) a
            else if isWS c then ccGo (CCSt.pend (c :: ws)) a
            else if isLowerAlpha c then ':' :: ' ' :: upperChar c :: ccGo CCSt.norm a
            else (':' :: ws.reverse) ++ (c :: ccGo CCSt.norm a))
          = ':' :: ws.reverse ++ (c :: a)
      by_cases hcol : c = ':'
      · rw [if_pos hcol, ih2.2 []]
        subst hcol
        simp
      · rw [if_neg hcol]
        by_cases hws : isWS c = true
        · rw [if_pos hws, ih2.2 (c :: ws)]
          simp
        · rw [if_neg hws, if_neg (by simp [hc]), ih2.1]
          try simp

theorem ccGo_letterFree_colon (a z : List Char) (h : ∀ c ∈ a, isLowerAlpha c = false) :
    ccGo CCSt.norm (a ++ ':' :: z) = a ++ ccGo (CCSt.pend []) z ∧
    ∀ ws, ccGo (CCSt.pend ws) (a ++ ':' :: z)
      = ':' :: ws.reverse ++ (a ++ ccGo (CCSt.pend []) z) := by
  induction a with
  | nil =>
    constructor
    · show (if ':' = ':' then ccGo (CCSt.pend []) z else _) = _
      rw [if_pos rfl]
      rfl
    · intro ws
      show (if ':' = ':' then (':' :: ws.reverse) ++ ccGo (CCSt.pend []) z else _) = _
      rw [if_pos rfl]
      simp
  | cons c a ih =>
    have hc : isLowerAlpha c = false := h c (List.mem_cons_self c a)
    have ih2 := ih (fun x hx => h x (List.mem_cons_of_mem c hx))
    constructor
    · show (if c = ':' then ccGo (CCSt.pend []) (a ++ ':' :: z)
            else c :: ccGo CCSt.norm (a ++ ':' :: z)) = _
      by_cases hcol : c = ':'
      · rw [if_pos hcol, ih2.2 []]
        subst hcol
        rfl
      · rw [if_neg hcol, ih2.1]
        rfl
    · intro ws
      show (if c = ':' then (':' :: ws.reverse) ++ ccGo (CCSt.pend []) (a ++ ':' :: z)
            else if isWS c then ccGo (CCSt.pend (c :: ws)) (a ++ ':' :: z)
            else if isLowerAlpha c then ':' :: ' ' :: upperChar c :: ccGo CCSt.norm (a ++ ':' :: z)
            else (':' :: ws.reverse) ++ (c :: ccGo CCSt.norm (a ++ ':' :: z)))
          = ':' :: ws.reverse ++ ((c :: a) ++ ccGo (CCSt.pend []) z)
      by_cases hcol : c = ':'
      · rw [if_pos hcol, ih2.2 []]
        subst hcol
        simp
      · rw [if_neg hcol]
        by_cases hws : isWS c = true
        · rw [if_pos hws, ih2.2 (c :: ws)]
          simp
        · rw [if_neg hws, if_neg (by simp [hc]), ih2.1]
          simp

theorem noDbl_cons (c : Char) (l : List Char) :
    noDbl (c :: l) = (!(isWS c && headWS l) && noDbl l) := by
  cases l with
  | nil => simp [noDbl, headWS]
  | cons b r => rfl

theorem wsTidy_cons_iff (c : Char) (l : List Char) :
    wsTidy (c :: l) = true ↔
      ((isWS c = true → c = ' ') ∧ ¬(isWS c = true ∧ headWS l = true) ∧ wsTidy l = true) := by
  simp only [wsTidy, List.all_cons, noDbl_cons, Bool.and_eq_true, Bool.or_eq_true,
    Bool.not_eq_true', beq_iff_eq]
  constructor
  · rintro ⟨⟨h1, h2⟩, h3, h4⟩
    refine ⟨fun hw => ?_, fun hb => ?_, h2, h4⟩
    · rcases h1 with h1 | h1
      · rw [hw] at h1
        exact Bool.noConfusion h1
      · exact h1
    · rw [hb.1, hb.2] at h3
      exact Bool.noConfusion h3
  · rintro ⟨h1, h2, h3, h4⟩
    refine ⟨⟨?_, h3⟩, ?_, h4⟩
    · by_cases hw : isWS c = true
      · exact Or.inr (h1 hw)
      · exact Or.inl (by simpa using hw)
    · by_cases hw : isWS c = true
      · by_cases hb : headWS l = true
        · exact absurd ⟨hw, hb⟩ h2
        · simp [hw, Bool.not_eq_true] at hb ⊢
          simp [hb]
      · simp [Bool.not_eq_true] at hw
        simp [hw]

theorem wsTidy_tail (c : Char) (l : List Char) (h : wsTidy (c :: l) = true) :
    wsTidy l = true := ((wsTidy_cons_iff c l).1 h).2.2

theorem wsTidy_append_left (a b : List Char) (h : wsTidy (a ++ b) = true) :
    wsTidy a = true := by
  induction a with
  | nil => rfl
  | cons c a ih =>
    rw [List.cons_append] at h
    rcases (wsTidy_cons_iff c (a ++ b)).1 h with ⟨h1, h2, h3⟩
    rw [wsTidy_cons_iff]
    refine ⟨h1, fun hb => h2 ⟨hb.1, ?_⟩, ih h3⟩
    · cases a with
      | nil => exact absurd hb.2 (by simp [headWS])
      | cons d r => exact hb.2

theorem wsTidy_append_right (a b : List Char) (h : wsTidy (a ++ b) = true) :
    wsTidy b = true := by
  induction a with
  | nil => exact h
  | cons c a ih => exact ih (wsTidy_tail c (a ++ b) h)

theorem wsTidy_space (c : Char) (l : List Char) (hc : c ∈ l) (hw : isWS c = true)
    (h : wsTidy l = true) : c = ' ' := by
  induction l with
  | nil => exact absurd hc (List.not_mem_nil c)
  | cons d r ih =>
    rcases (wsTidy_cons_iff d r).1 h with ⟨h1, _, h3⟩
    rcases List.mem_cons.1 hc with h4 | h4
    · subst h4
      exact h1 hw
    · exact ih h4 h3

theorem wsTidy_pair (c d : Char) (l : List Char) (h : wsTidy (c :: d :: l) = true)
    (hc : isWS c = true) : isWS d = false := by
  rcases (wsTidy_cons_iff c (d :: l)).1 h with ⟨_, h2, _⟩
  by_cases hd : isWS d = true
  · exact absurd ⟨hc, by simpa [headWS] using hd⟩ h2
  · simpa using hd

/-- Splitting a list at its last colon. -/
theorem lastColonSplit (n : List Char) (h : ':' ∈ n) :
    ∃ m w, n = m ++ ':' :: w ∧ ':' ∉ w := by
  induction n with
  | nil => exact absurd h (List.not_mem_nil ':')
  | cons c rest ih =>
    by_cases hr : ':' ∈ rest
    · obtain ⟨m, w, heq, hw⟩ := ih hr
      exact ⟨c :: m, w, by rw [heq]; rfl, hw⟩
    · have hc : c = ':' := by
        rcases List.mem_cons.1 h with h1 | h1
        · exact h1.symm
        · exact absurd h1 hr
      exact ⟨[], rest, by rw [hc]; rfl, hr⟩

theorem endsColon_concat (m : List Char) : endsColon (m ++ [':']) = true := by
  simp [endsColon, List.getLast?_concat]

theorem endsColonSpace_concat (m : List Char) : endsColonSpace (m ++ [':', ' ']) = true := by
  have h1 : (m ++ [':', ' ']) = (m ++ [':']) ++ [' '] := by simp
  have h2 : (m ++ [':', ' ']).getLast? = some ' ' := by rw [h1]; exact List.getLast?_concat _
  have h3 : (m ++ [':', ' ']).dropLast = m ++ [':'] := by rw [h1]; simp
  simp [endsColonSpace, h2, h3, List.getLast?_concat]

theorem endsColon_concat_space (m : List Char) : endsColon (m ++ [':', ' ']) = false := by
  have h1 : (m ++ [':', ' ']) = (m ++ [':']) ++ [' '] := by simp
  rw [h1]
  simp [endsColon, List.getLast?_concat]

theorem endsColon_false_of_last (m w : List Char) (hw : w ≠ []) (hcw : ':' ∉ w) :
    endsColon (m ++ ':' :: w) = false := by
  rcases w with _ | ⟨x, w2⟩
  · exact absurd rfl hw
  · have hne : (x :: w2 : List Char) ≠ [] := by simp
    have hg : (x :: w2).getLast? = some ((x :: w2).getLast hne) := List.getLast?_eq_getLast _ hne
    have hmem : (x :: w2).getLast hne ∈ x :: w2 := List.getLast_mem hne
    have hlast : (m ++ ':' :: x :: w2).getLast? = some ((x :: w2).getLast hne) := by
      rw [List.getLast?_append, List.getLast?_cons_cons, hg]
      rfl
    have hnc : (x :: w2).getLast hne ≠ ':' := fun hcc => hcw (hcc ▸ hmem)
    simp [endsColon, hlast, hnc]

theorem endsColonSpace_false_single (m : List Char) (d : Char) (hd : d ≠ ' ') :
    endsColonSpace (m ++ [':', d]) = false := by
  have h1 : (m ++ [':', d]) = (m ++ [':']) ++ [d] := by simp
  have h2 : (m ++ [':', d]).getLast? = some d := by rw [h1]; exact List.getLast?_concat _
  simp [endsColonSpace, h2, hd]

theorem endsColonSpace_false_two (m : List Char) (x y : Char) (w3 : List Char)
    (hcw : ':' ∉ x :: y :: w3) :
    endsColonSpace (m ++ ':' :: x :: y :: w3) = false := by
  have hdl : (m ++ ':' :: x :: y :: w3).dropLast
      = m ++ ':' :: x :: (y :: w3).dropLast := by
    rw [List.dropLast_append_cons]
    rw [List.dropLast_cons_of_ne_nil (by simp), List.dropLast_cons_of_ne_nil (by simp)]
  have hne : (x :: (y :: w3).dropLast : List Char) ≠ [] := by simp
  have hg : (x :: (y :: w3).dropLast).getLast?
      = some ((x :: (y :: w3).dropLast).getLast hne) := List.getLast?_eq_getLast _ hne
  have hmem : (x :: (y :: w3).dropLast).getLast hne ∈ x :: (y :: w3).dropLast :=
    List.getLast_mem hne
  have hsub : (x :: (y :: w3).dropLast).getLast hne ∈ x :: y :: w3 := by
    rcases List.mem_cons.1 hmem with h1 | h1
    · rw [h1]
      exact List.mem_cons_self x (y :: w3)
    · exact List.mem_cons_of_mem x (List.dropLast_subset (y :: w3) h1)
  have hlast : (m ++ ':' :: x :: y :: w3).dropLast.getLast?
      = some ((x :: (y :: w3).dropLast).getLast hne) := by
    rw [hdl, List.getLast?_append, List.getLast?_cons_cons, hg]
    rfl
  have hnc : (x :: (y :: w3).dropLast).getLast hne ≠ ':' := fun hcc => hcw (hcc ▸ hsub)
  have hb : ((m ++ ':' :: x :: y :: w3).dropLast.getLast? == some ':') = false := by
    rw [hlast]
    simp [hnc]
  simp only [endsColonSpace, hb, Bool.and_false]

theorem ccGo_pend_word (ws : List Char) (c0 : Char) (t : List Char) (hc0 : isWordChar c0 = true) :
    ccGo (CCSt.pend ws) (c0 :: t)
      = if isLowerAlpha c0 = true then ':' :: ' ' :: upperChar c0 :: ccGo CCSt.norm t
        else ':' :: ws.reverse ++ (c0 :: ccGo CCSt.norm t) := by
  have hne : ¬c0 = ':' := not_colon_of_word c0 hc0
  have hws : isWS c0 = false := not_ws_of_word c0 hc0
  show (if c0 = ':' then (':' :: ws.reverse) ++ ccGo (CCSt.pend []) t
        else if isWS c0 then ccGo (CCSt.pend (c0 :: ws)) t
        else if isLowerAlpha c0 then ':' :: ' ' :: upperChar c0 :: ccGo CCSt.norm t
        else (':' :: ws.reverse) ++ (c0 :: ccGo CCSt.norm t)) = _
  rw [if_neg hne, if_neg (by simp [hws])]

theorem ccGo_pend_space (ws : List Char) (r : List Char) :
    ccGo (CCSt.pend ws) (' ' :: r) = ccGo (CCSt.pend (' ' :: ws)) r := by
  show (if ' ' = ':' then (':' :: ws.reverse) ++ ccGo (CCSt.pend []) r
        else if isWS ' ' then ccGo (CCSt.pend (' ' :: ws)) r
        else if isLowerAlpha ' ' then ':' :: ' ' :: upperChar ' ' :: ccGo CCSt.norm r
        else (':' :: ws.reverse) ++ (' ' :: ccGo CCSt.norm r)) = _
  rw [if_neg (by decide), if_pos (by decide)]

theorem ccGo_pend_flush (ws : List Char) (d : Char) (r : List Char)
    (hd1 : ¬d = ':') (hd2 : isWS d = false) (hd3 : isLowerAlpha d = false) :
    ccGo (CCSt.pend ws) (d :: r) = ':' :: ws.reverse ++ (d :: ccGo CCSt.norm r) := by
  show (if d = ':' then (':' :: ws.reverse) ++ ccGo (CCSt.pend []) r
        else if isWS d then ccGo (CCSt.pend (d :: ws)) r
        else if isLowerAlpha d then ':' :: ' ' :: upperChar d :: ccGo CCSt.norm r
        else (':' :: ws.reverse) ++ (d :: ccGo CCSt.norm r)) = _
  rw [if_neg hd1, if_neg (by simp [hd2]), if_neg (by simp [hd3])]

theorem colon_mem_of_endsColon (n : List Char) (h : endsColon n = true) : ':' ∈ n := by
  simp only [endsColon, beq_iff_eq] at h
  exact List.mem_of_getLast?_eq_some h

theorem colon_mem_of_endsColonSpace (n : List Char) (h : endsColonSpace n = true) : ':' ∈ n := by
  simp only [endsColonSpace, Bool.and_eq_true, beq_iff_eq] at h
  exact List.dropLast_subset n (List.mem_of_getLast?_eq_some h.2)

theorem ccGo_norm_word (c0 : Char) (t : List Char) (hc0 : isWordChar c0 = true) :
    ccGo CCSt.norm (c0 :: t) = c0 :: ccGo CCSt.norm t := by
  show (if c0 = ':' then ccGo (CCSt.pend []) t else c0 :: ccGo CCSt.norm t) = _
  rw [if_neg (not_colon_of_word c0 hc0)]

/-- Behaviour of the colon-capitalisation scanner across the boundary between
a non-word run `n` and the first character `c0` of the following word run:
exactly the three cases of `capToks`. -/
theorem ccGo_nonword_boundary (n : List Char) (c0 : Char) (t : List Char)
    (hnw : ∀ c ∈ n, isWordChar c = false) (htidy : wsTidy n = true)
    (hc0 : isWordChar c0 = true) :
    ccGo CCSt.norm (n ++ c0 :: t)
      = if endsColon n = true ∧ isLowerAlpha c0 = true then
          n ++ ' ' :: upperChar c0 :: ccGo CCSt.norm t
        else if endsColonSpace n = true ∧ isLowerAlpha c0 = true then
          n ++ upperChar c0 :: ccGo CCSt.norm t
        else n ++ c0 :: ccGo CCSt.norm t := by
  have hlf : ∀ c ∈ n, isLowerAlpha c = false := fun c hc => not_lower_of_not_word c (hnw c hc)
  by_cases hcol : ':' ∈ n
  case neg =>
    rw [ccGo_app_noColon n (c0 :: t) (fun c hc hceq => hcol (hceq ▸ hc))]
    have h1 : ¬(endsColon n = true ∧ isLowerAlpha c0 = true) := fun hh =>
      hcol (colon_mem_of_endsColon n hh.1)
    have h2 : ¬(endsColonSpace n = true ∧ isLowerAlpha c0 = true) := fun hh =>
      hcol (colon_mem_of_endsColonSpace n hh.1)
    rw [if_neg h1, if_neg h2, ccGo_norm_word c0 t hc0]
  case pos =>
    obtain ⟨m, w, heq, hcw⟩ := lastColonSplit n hcol
    subst heq
    have hlfm : ∀ c ∈ m, isLowerAlpha c = false := fun c hc => hlf c (by simp [hc])
    have hstart : (m ++ ':' :: w) ++ c0 :: t = m ++ ':' :: (w ++ c0 :: t) := by simp
    rw [hstart, (ccGo_letterFree_colon m (w ++ c0 :: t) hlfm).1]
    rcases w with _ | ⟨d, w'⟩
    · rw [show (([] : List Char) ++ c0 :: t) = c0 :: t from rfl, ccGo_pend_word [] c0 t hc0]
      by_cases hl : isLowerAlpha c0 = true
      · rw [if_pos hl, if_pos ⟨endsColon_concat m, hl⟩]
        simp
      · rw [if_neg hl, if_neg (fun hh => hl hh.2), if_neg (fun hh => hl hh.2)]
        simp
    · by_cases hdws : isWS d = true
      · have hd : d = ' ' := wsTidy_space d (m ++ ':' :: d :: w') (by simp) hdws htidy
        subst hd
        rcases w' with _ | ⟨d2, w''⟩
        · rw [show (([' '] : List Char) ++ c0 :: t) = ' ' :: c0 :: t from rfl,
            ccGo_pend_space [] (c0 :: t), ccGo_pend_word [' '] c0 t hc0]
          have he1 : endsColon (m ++ [':', ' ']) = false := endsColon_concat_space m
          have he2 : endsColonSpace (m ++ [':', ' ']) = true := endsColonSpace_concat m
          by_cases hl : isLowerAlpha c0 = true
          · rw [if_pos hl, if_neg (fun hh => by rw [he1] at hh; exact Bool.noConfusion hh.1),
              if_pos ⟨he2, hl⟩]
            simp
          · rw [if_neg hl, if_neg (fun hh => hl hh.2), if_neg (fun hh => hl hh.2)]
            simp
        · have hd2ws : isWS d2 = false := by
            have ht2 : wsTidy (' ' :: d2 :: w'') = true := by
              have := wsTidy_append_right (m ++ [':']) (' ' :: d2 :: w'')
                (by simpa using htidy)
              exact this
            exact wsTidy_pair ' ' d2 w'' ht2 (by decide)
          have hd2c : ¬d2 = ':' := fun hh => hcw (by simp [hh])
          have hd2l : isLowerAlpha d2 = false := hlf d2 (by simp)
          rw [show ((' ' :: d2 :: w'' : List Char) ++ c0 :: t) = ' ' :: (d2 :: (w'' ++ c0 :: t))
              from by simp, ccGo_pend_space [] (d2 :: (w'' ++ c0 :: t)),
            ccGo_pend_flush [' '] d2 (w'' ++ c0 :: t) hd2c hd2ws hd2l,
            ccGo_app_noColon w'' (c0 :: t) (fun c hc hceq => hcw (by simp [hceq ▸ hc])),
            ccGo_norm_word c0 t hc0]
          have he1 : endsColon (m ++ ':' :: ' ' :: d2 :: w'') = false :=
            endsColon_false_of_last m (' ' :: d2 :: w'') (by simp) hcw
          have he2 : endsColonSpace (m ++ ':' :: ' ' :: d2 :: w'') = false :=
            endsColonSpace_false_two m ' ' d2 w'' hcw
          rw [if_neg (fun hh => by rw [he1] at hh; exact Bool.noConfusion hh.1),
            if_neg (fun hh => by rw [he2] at hh; exact Bool.noConfusion hh.1)]
          simp
      · have hdc : ¬d = ':' := fun hh => hcw (by simp [hh])
        have hdl : isLowerAlpha d = false := hlf d (by simp)
        have hdws2 : isWS d = false := by simpa using hdws
        rw [show ((d :: w' : List Char) ++ c0 :: t) = d :: (w' ++ c0 :: t) from by simp,
          ccGo_pend_flush [] d (w' ++ c0 :: t) hdc hdws2 hdl,
          ccGo_app_noColon w' (c0 :: t) (fun c hc hceq => hcw (by simp [hceq ▸ hc])),
          ccGo_norm_word c0 t hc0]
        have he1 : endsColon (m ++ ':' :: d :: w') = false :=
          endsColon_false_of_last m (d :: w') (by simp) hcw
        have he2 : endsColonSpace (m ++ ':' :: d :: w') = false := by
          rcases w' with _ | ⟨y, w3⟩
          · exact endsColonSpace_false_single m d
              (fun hh => by rw [hh] at hdws2; exact absurd hdws2 (by decide))
          · exact endsColonSpace_false_two m d y w3 hcw
        rw [if_neg (fun hh => by rw [he1] at hh; exact Bool.noConfusion hh.1),
          if_neg (fun hh => by rw [he2] at hh; exact Bool.noConfusion hh.1)]
        simp

theorem groupRunsGo_spec (rest : List Char) (w : Bool) (acc : List Char) (hacc : acc ≠ [])
    (huni : ∀ c ∈ acc, isWordChar c = w) :
    (groupRunsGo w acc rest).flatten = acc.reverse ++ rest ∧
    ValidRuns w (groupRunsGo w acc rest) := by
  induction rest generalizing w acc with
  | nil =>
    refine ⟨by simp [groupRunsGo], ?_⟩
    exact ValidRuns.cons w acc.reverse [] (by simpa using hacc)
      (fun c hc => huni c (List.mem_reverse.1 hc)) (ValidRuns.nil _)
  | cons c rest ih =>
    show ((if isWordChar c = w then groupRunsGo w (c :: acc) rest
           else acc.reverse :: groupRunsGo (isWordChar c) [c] rest)).flatten = _ ∧
      ValidRuns w (if isWordChar c = w then groupRunsGo w (c :: acc) rest
                   else acc.reverse :: groupRunsGo (isWordChar c) [c] rest)
    by_cases hc : isWordChar c = w
    · rw [if_pos hc]
      obtain ⟨h1, h2⟩ := ih w (c :: acc) (by simp) (by
        intro x hx
        rcases List.mem_cons.1 hx with h | h
        · exact h ▸ hc
        · exact huni x h)
      refine ⟨?_, h2⟩
      rw [h1]
      simp
    · rw [if_neg hc]
      obtain ⟨h1, h2⟩ := ih (isWordChar c) [c] (by simp) (by
        intro x hx
        rw [List.mem_singleton.1 hx])
      have hwc : isWordChar c = !w := by
        cases hcc : isWordChar c <;> cases hww : w <;> simp_all
      constructor
      · show acc.reverse ++ (groupRunsGo (isWordChar c) [c] rest).flatten = _
        rw [h1]
        simp
      · refine ValidRuns.cons w acc.reverse _ (by simpa using hacc)
          (fun x hx => huni x (List.mem_reverse.1 hx)) ?_
        rw [← hwc]
        exact h2

theorem groupRuns_flatten (l : List Char) : (groupRuns l).flatten = l := by
  cases l with
  | nil => rfl
  | cons c rest =>
    have := (groupRunsGo_spec rest (isWordChar c) [c] (by simp) (by
      intro x hx
      rw [List.mem_singleton.1 hx])).1
    simpa using this

theorem groupRuns_valid (l : List Char) : ∃ w, ValidRuns w (groupRuns l) := by
  cases l with
  | nil => exact ⟨true, ValidRuns.nil true⟩
  | cons c rest =>
    exact ⟨isWordChar c, (groupRunsGo_spec rest (isWordChar c) [c] (by simp) (by
      intro x hx
      rw [List.mem_singleton.1 hx])).2⟩

theorem groupRunsGo_append (w : Bool) (acc a rest : List Char)
    (ha : ∀ c ∈ a, isWordChar c = w)
    (hrest : rest = [] ∨ ∃ r0 r2, rest = r0 :: r2 ∧ isWordChar r0 = !w) :
    groupRunsGo w acc (a ++ rest) = (acc.reverse ++ a) :: groupRuns rest := by
  induction a generalizing acc with
  | nil =>
    rcases hrest with h | ⟨r0, r2, heq, hr0⟩
    · subst h
      simp [groupRunsGo, groupRuns]
    · subst heq
      show (if isWordChar r0 = w then groupRunsGo w (r0 :: acc) r2
            else acc.reverse :: groupRunsGo (isWordChar r0) [r0] r2) = _
      have hne : ¬isWordChar r0 = w := by
        rw [hr0]
        cases w <;> simp
      rw [if_neg hne]
      simp [groupRuns]
  | cons c a ih =>
    have hc := ha c (List.mem_cons_self c a)
    show (if isWordChar c = w then groupRunsGo w (c :: acc) (a ++ rest)
          else acc.reverse :: groupRunsGo (isWordChar c) [c] (a ++ rest)) = _
    rw [if_pos hc, ih (c :: acc) (fun x hx => ha x (List.mem_cons_of_mem c hx))]
    simp

theorem flatten_groupRuns (w : Bool) (toks : List (List Char)) (h : ValidRuns w toks) :
    groupRuns toks.flatten = toks := by
  induction h with
  | nil w => rfl
  | cons w tok toks hne huni hval ih =>
    rcases tok with _ | ⟨c, tok2⟩
    · exact absurd rfl hne
    have hc : isWordChar c = w := huni c (List.mem_cons_self c tok2)
    show groupRunsGo (isWordChar c) [c] (tok2 ++ toks.flatten) = _
    rw [hc]
    rw [groupRunsGo_append w [c] tok2 toks.flatten
      (fun x hx => huni x (List.mem_cons_of_mem c hx)) ?_]
    · rw [ih]
      rfl
    · cases hval with
      | nil => exact Or.inl rfl
      | cons w2 tk tks hne2 huni2 hval2 =>
        rcases tk with _ | ⟨d, tk2⟩
        · exact absurd rfl hne2
        exact Or.inr ⟨d, tk2 ++ tks.flatten, by simp, huni2 d (List.mem_cons_self d tk2)⟩

theorem validRuns_map_lower (w : Bool) (toks : List (List Char)) (h : ValidRuns w toks) :
    ValidRuns w (toks.map (List.map lowerChar)) := by
  induction h with
  | nil w => exact ValidRuns.nil w
  | cons w tok toks hne huni hval ih =>
    refine ValidRuns.cons w (tok.map lowerChar) _ (by simpa using hne) ?_ ih
    intro c hc
    obtain ⟨d, hd, hdc⟩ := List.mem_map.1 hc
    rw [← hdc, isWordChar_lowerChar]
    exact huni d hd

theorem capToks_length (cap : Bool) (toks : List (List Char)) :
    (capToks cap toks).length = toks.length := by
  induction toks generalizing cap with
  | nil => rfl
  | cons tok rest ih =>
    show (if isWordTok tok = true then _ else _ : List (List Char)).length = _
    by_cases h : isWordTok tok = true
    · rw [if_pos h]
      simp [ih]
    · rw [if_neg h]
      by_cases h2 : (endsColon tok && startsLower rest) = true
      · rw [if_pos h2]
        simp [ih]
      · rw [if_neg h2]
        by_cases h3 : (endsColonSpace tok && startsLower rest) = true
        · rw [if_pos h3]
          simp [ih]
        · rw [if_neg h3]
          simp [ih]

theorem capIf_cons_not_lower (cap : Bool) (c : Char) (x : List Char)
    (h : isLowerAlpha c = false) : capIf cap (c :: x) = c :: x := by
  cases cap <;> simp [capIf, capFirst_cons_not_lower, h]

theorem capIf_append (cap : Bool) (a b : List Char) (ha : a ≠ []) :
    capIf cap (a ++ b) = capIf cap a ++ b := by
  cases cap <;> simp [capIf, capFirst_append a b ha]

theorem capIf_word_uniform (cap : Bool) (c : Char) (tok : List Char)
    (h : ∀ x ∈ c :: tok, isWordChar x = true) :
    ∀ x ∈ capIf cap (c :: tok), isWordChar x = true := by
  cases cap with
  | false => simpa [capIf] using h
  | true =>
    intro x hx
    simp only [capIf, if_pos] at hx
    by_cases hl : isLowerAlpha c = true
    · rw [capFirst, if_pos hl] at hx
      rcases List.mem_cons.1 hx with h1 | h1
      · rw [h1]
        exact isWordChar_upperChar c hl
      · exact h x (List.mem_cons_of_mem c h1)
    · rw [capFirst, if_neg hl] at hx
      exact h x hx

theorem validRuns_capToks (w : Bool) (toks : List (List Char)) (hv : ValidRuns w toks) :
    ∀ cap, ValidRuns w (capToks cap toks) := by
  induction hv with
  | nil w => exact fun _ => ValidRuns.nil w
  | cons w tok toks hne huni hval ih =>
    intro cap
    rcases tok with _ | ⟨c, tok2⟩
    · exact absurd rfl hne
    show ValidRuns w (if isWordTok (c :: tok2) = true then _ else _)
    by_cases hw : isWordTok (c :: tok2) = true
    · rw [if_pos hw]
      have hww : w = true := by
        have := huni c (List.mem_cons_self c tok2)
        rw [← this]
        simpa [isWordTok] using hw
      subst hww
      refine ValidRuns.cons true _ _ ?_ ?_ (ih false)
      · show (if cap then capFirst (c :: tok2) else (c :: tok2)) ≠ []
        cases cap
        · simp
        · simp only [if_pos]
          rw [capFirst]
          by_cases hl : isLowerAlpha c = true
          · rw [if_pos hl]
            simp
          · rw [if_neg hl]
            simp
      · exact capIf_word_uniform cap c tok2 huni
    · rw [if_neg hw]
      have hww : w = false := by
        have := huni c (List.mem_cons_self c tok2)
        rw [← this]
        simpa [isWordTok] using hw
      subst hww
      by_cases h2 : (endsColon (c :: tok2) && startsLower toks) = true
      · rw [if_pos h2]
        refine ValidRuns.cons false _ _ (by simp) ?_ (ih true)
        intro x hx
        rcases List.mem_append.1 hx with h1 | h1
        · exact huni x h1
        · rw [List.mem_singleton.1 h1]
          decide
      · rw [if_neg h2]
        by_cases h3 : (endsColonSpace (c :: tok2) && startsLower toks) = true
        · rw [if_pos h3]
          exact ValidRuns.cons false _ _ hne huni (ih true)
        · rw [if_neg h3]
          exact ValidRuns.cons false _ _ hne huni (ih false)

theorem overwriteIdx_eq_zipWith (a b : List (List Char)) (h : a.length = b.length) :
    overwriteIdx a b = List.zipWith (fun o c => if hasCapsRun o then o else c) a b := by
  apply List.ext_getElem
  · simp [overwriteIdx, h]
  · intro i h1 h2
    have hia : i < a.length := by
      simpa [overwriteIdx, h] using h1
    have hib : i < b.length := h ▸ hia
    simp only [overwriteIdx, List.getElem_map, List.getElem_range, List.getElem_zipWith]
    rw [dif_pos hia]
    have hbd : b.getD i [] = b[i] := by
      rw [List.getD_eq_getElem?_getD, List.getElem?_eq_getElem hib]
      rfl
    rw [hbd]
    rfl

theorem wsTidy_collapse_aux (l : List Char) :
    ∀ prev, wsTidy (collapseRunsGo isWS ' ' prev l) = true ∧
      headWS (collapseRunsGo isWS ' ' true l) = false := by
  induction l with
  | nil => exact fun prev => ⟨rfl, rfl⟩
  | cons c l ih =>
    intro prev
    by_cases hc : isWS c = true
    · constructor
      · show wsTidy (if isWS c then (if prev then collapseRunsGo isWS ' ' true l
            else ' ' :: collapseRunsGo isWS ' ' true l)
            else c :: collapseRunsGo isWS ' ' false l) = true
        rw [if_pos hc]
        cases prev with
        | true =>
          rw [if_pos rfl]
          exact (ih true).1
        | false =>
          rw [if_neg (by simp)]
          rw [wsTidy_cons_iff]
          refine ⟨fun _ => rfl, fun hb => ?_, (ih true).1⟩
          rw [(ih true).2] at hb
          exact Bool.noConfusion hb.2
      · show headWS (if isWS c then (if true = true then collapseRunsGo isWS ' ' true l
            else ' ' :: collapseRunsGo isWS ' ' true l)
            else c :: collapseRunsGo isWS ' ' false l) = false
        rw [if_pos hc, if_pos rfl]
        exact (ih true).2
    · have hcf : isWS c = false := by simpa using hc
      constructor
      · show wsTidy (if isWS c then (if prev then collapseRunsGo isWS ' ' true l
            else ' ' :: collapseRunsGo isWS ' ' true l)
            else c :: collapseRunsGo isWS ' ' false l) = true
        rw [if_neg (by simp [hcf])]
        rw [wsTidy_cons_iff]
        refine ⟨fun hw => absurd hw (by simp [hcf]), fun hb => ?_, (ih false).1⟩
        rw [hcf] at hb
        exact Bool.noConfusion hb.1
      · show headWS (if isWS c then (if true = true then collapseRunsGo isWS ' ' true l
            else ' ' :: collapseRunsGo isWS ' ' true l)
            else c :: collapseRunsGo isWS ' ' false l) = false
        rw [if_neg (by simp [hcf])]
        show isWS c = false
        exact hcf

theorem wsTidy_collapseWS (l : List Char) : wsTidy (collapseWS l) = true :=
  (wsTidy_collapse_aux l false).1

theorem wsTidy_dropWhile (p : Char → Bool) (l : List Char) (h : wsTidy l = true) :
    wsTidy (l.dropWhile p) = true := by
  obtain ⟨pre, hpre⟩ := List.dropWhile_suffix p (l := l)
  rw [← hpre] at h
  exact wsTidy_append_right pre _ h

theorem wsTidy_jsTrim (l : List Char) (h : wsTidy l = true) : wsTidy (jsTrim l) = true := by
  have h1 : wsTidy (l.dropWhile isWS) = true := wsTidy_dropWhile isWS l h
  obtain ⟨pre, hpre⟩ := List.dropWhile_suffix isWS (l := (l.dropWhile isWS).reverse)
  have h2 : l.dropWhile isWS = ((l.dropWhile isWS).reverse.dropWhile isWS).reverse
      ++ pre.reverse := by
    have h3 := congrArg List.reverse hpre
    simpa using h3.symm
  rw [h2] at h1
  exact wsTidy_append_left _ _ h1

theorem wsTidy_tail_any (l : List Char) (h : wsTidy l = true) : wsTidy l.tail = true := by
  cases l with
  | nil => exact h
  | cons c r => exact wsTidy_tail c r h

theorem wsTidy_dropLast (l : List Char) (h : wsTidy l = true) :
    wsTidy l.dropLast = true := by
  cases hl : l.getLast? with
  | none =>
    have h0 : l = [] := by
      cases l with
      | nil => rfl
      | cons c r => exact absurd hl (by simp)
    subst h0
    exact h
  | some a =>
    have h2 : l.dropLast ++ [a] = l := List.dropLast_append_getLast? a hl
    rw [← h2] at h
    exact wsTidy_append_left _ _ h

theorem wsTidy_stripBracesEnds (l : List Char) (h : wsTidy l = true) :
    wsTidy (stripBracesEnds l) = true := by
  have h1 : wsTidy (if l.head? == some '{' then l.tail else l) = true := by
    by_cases hh : (l.head? == some '{') = true
    · rw [if_pos hh]
      exact wsTidy_tail_any l h
    · rw [if_neg hh]
      exact h
  unfold stripBracesEnds
  by_cases hh2 : ((if l.head? == some '{' then l.tail else l).getLast? == some '}') = true
  · rw [if_pos hh2]
    exact wsTidy_dropLast _ h1
  · rw [if_neg hh2]
    exact h1

theorem wsTidy_token (s : List Char) (hs : wsTidy s = true) (tok : List Char)
    (htok : tok ∈ groupRuns s) : wsTidy tok = true := by
  obtain ⟨l1, l2, heq⟩ := List.append_of_mem htok
  have hflat : s = l1.flatten ++ (tok ++ l2.flatten) := by
    rw [← groupRuns_flatten s, heq]
    simp
  rw [hflat] at hs
  exact wsTidy_append_left _ _ (wsTidy_append_right _ _ hs)

theorem capToks_cons (cap : Bool) (tok : List Char) (rest : List (List Char)) :
    capToks cap (tok :: rest)
      = if isWordTok tok = true then (if cap then capFirst tok else tok) :: capToks false rest
        else if (endsColon tok && startsLower rest) = true then
          (tok ++ [' ']) :: capToks true rest
        else if (endsColonSpace tok && startsLower rest) = true then tok :: capToks true rest
        else tok :: capToks false rest := rfl

/-- The colon-capitalisation scanner over the flattened (lowered) run list
equals the word-level capitalisation `capToks`, token by token. -/
theorem ccGo_capToks_aux : ∀ (N : Nat) (toks : List (List Char)), toks.length ≤ N →
    ∀ (w : Bool) (cap : Bool), ValidRuns w toks → (∀ tok ∈ toks, wsTidy tok = true) →
    ccGo CCSt.norm (capIf cap toks.flatten) = (capToks cap toks).flatten := by
  intro N
  induction N with
  | zero =>
    intro toks hlen w cap hv hts
    have h0 : toks = [] := List.eq_nil_of_length_eq_zero (Nat.le_zero.1 hlen)
    subst h0
    cases cap <;> rfl
  | succ N ih =>
    intro toks hlen w cap hv hts
    cases hv with
    | nil w => cases cap <;> rfl
    | cons w tok rest hne huni hv2 =>
      rcases tok with _ | ⟨c, tok2⟩
      · exact absurd rfl hne
      have hlen2 : rest.length ≤ N := by
        simp only [List.length_cons] at hlen
        omega
      have hts2 : ∀ t ∈ rest, wsTidy t = true := fun t ht => hts t (List.mem_cons_of_mem _ ht)
      by_cases hw : isWordChar c = true
      · have hwt : w = true := (huni c (List.mem_cons_self c tok2)).symm.trans hw
        have huniT : ∀ y ∈ (c :: tok2), isWordChar y = true := fun y hy =>
          (huni y hy).trans hwt
        have hflat : ((c :: tok2) :: rest).flatten = (c :: tok2) ++ rest.flatten := rfl
        rw [hflat, capIf_append cap (c :: tok2) rest.flatten (by simp)]
        have hcolfree : ∀ x ∈ capIf cap (c :: tok2), ¬x = ':' := by
          intro x hx hxc
          have hxw := capIf_word_uniform cap c tok2 huniT x hx
          rw [hxc] at hxw
          exact absurd hxw (by decide)
        rw [ccGo_app_noColon _ rest.flatten hcolfree]
        have hrec := ih rest hlen2 (!w) false hv2 hts2
        rw [show ccGo CCSt.norm rest.flatten = ccGo CCSt.norm (capIf false rest.flatten)
          from rfl, hrec]
        rw [capToks_cons, if_pos (by simpa [isWordTok] using hw)]
        rfl
      · have hwf : w = false := by
          have h1 := huni c (List.mem_cons_self c tok2)
          cases w
          · rfl
          · rw [h1] at hw
            exact absurd rfl hw
        subst hwf
        have hlfn : ∀ x ∈ (c :: tok2), isWordChar x = false := huni
        have hclow : isLowerAlpha c = false :=
          not_lower_of_not_word c (huni c (List.mem_cons_self _ _))
        have hwtf : ¬isWordTok (c :: tok2) = true := by
          simp only [isWordTok]
          simp [hw]
        cases hv2 with
        | nil =>
          have hfl : (((c :: tok2) :: ([] : List (List Char))).flatten) = c :: tok2 := by simp
          rw [hfl, capIf_cons_not_lower cap c tok2 hclow,
            (ccGo_letterFree (c :: tok2) (fun x hx => not_lower_of_not_word x (hlfn x hx))).1,
            capToks_cons, if_neg hwtf]
          rw [if_neg (by simp [startsLower]), if_neg (by simp [startsLower]),
            show capToks false ([] : List (List Char)) = ([] : List (List Char)) from rfl]
          simp
        | cons w2 tk tks hne2 huni2 hv3 =>
          rcases tk with _ | ⟨c0, w2'⟩
          · exact absurd rfl hne2
          have hc0 : isWordChar c0 = true := by
            have := huni2 c0 (List.mem_cons_self _ _)
            simpa using this
          have hflat2 : (((c :: tok2) :: (c0 :: w2') :: tks).flatten)
              = (c :: tok2) ++ (c0 :: (w2' ++ tks.flatten)) := by simp
          have hcap2 : capIf cap (((c :: tok2) :: (c0 :: w2') :: tks).flatten)
              = ((c :: tok2) :: (c0 :: w2') :: tks).flatten := by
            rw [hflat2]
            rw [show ((c :: tok2) ++ (c0 :: (w2' ++ tks.flatten)))
              = c :: (tok2 ++ (c0 :: (w2' ++ tks.flatten))) from rfl]
            exact capIf_cons_not_lower cap c _ hclow
          rw [hcap2, hflat2,
            ccGo_nonword_boundary (c :: tok2) c0 (w2' ++ tks.flatten) hlfn
              (hts _ (List.mem_cons_self _ _)) hc0]
          have hw2free : ∀ x ∈ w2', ¬x = ':' := by
            intro x hx hxc
            have hh := huni2 x (List.mem_cons_of_mem c0 hx)
            rw [hxc] at hh
            exact absurd (by simpa using hh) (by decide)
          have htks : tks.length ≤ N := by
            simp only [List.length_cons] at hlen
            omega
          have hrec := ih tks htks (!(!false)) false hv3
            (fun t ht => hts2 t (List.mem_cons_of_mem _ ht))
          have hsl : startsLower ((c0 :: w2') :: tks) = isLowerAlpha c0 := rfl
          by_cases h1 : (endsColon (c :: tok2) = true ∧ isLowerAlpha c0 = true)
          · rw [if_pos h1, ccGo_app_noColon w2' tks.flatten hw2free,
              show ccGo CCSt.norm tks.flatten = ccGo CCSt.norm (capIf false tks.flatten)
                from rfl, hrec]
            rw [capToks_cons, if_neg hwtf,
              if_pos (by rw [Bool.and_eq_true, hsl]; exact h1)]
            rw [capToks_cons, if_pos (by simpa [isWordTok] using hc0)]
            rw [show (if true then capFirst (c0 :: w2') else (c0 :: w2')) = capFirst (c0 :: w2')
              from rfl]
            rw [capFirst, if_pos h1.2]
            simp
          · rw [if_neg h1]
            by_cases h2 : (endsColonSpace (c :: tok2) = true ∧ isLowerAlpha c0 = true)
            · rw [if_pos h2, ccGo_app_noColon w2' tks.flatten hw2free,
                show ccGo CCSt.norm tks.flatten = ccGo CCSt.norm (capIf false tks.flatten)
                  from rfl, hrec]
              rw [capToks_cons, if_neg hwtf,
                if_neg (by rw [Bool.and_eq_true, hsl]; exact h1),
                if_pos (by rw [Bool.and_eq_true, hsl]; exact h2)]
              rw [capToks_cons, if_pos (by simpa [isWordTok] using hc0)]
              rw [show (if true then capFirst (c0 :: w2') else (c0 :: w2'))
                = capFirst (c0 :: w2') from rfl]
              rw [capFirst, if_pos h2.2]
              simp
            · rw [if_neg h2, ccGo_app_noColon w2' tks.flatten hw2free,
                show ccGo CCSt.norm tks.flatten = ccGo CCSt.norm (capIf false tks.flatten)
                  from rfl, hrec]
              rw [capToks_cons, if_neg hwtf,
                if_neg (by rw [Bool.and_eq_true, hsl]; exact h1),
                if_neg (by rw [Bool.and_eq_true, hsl]; exact h2)]
              rw [capToks_cons, if_pos (by simpa [isWordTok] using hc0)]
              rw [show (if false then capFirst (c0 :: w2') else (c0 :: w2'))
                = (c0 :: w2') from rfl]
              simp

theorem isWS_lowerChar (c : Char) : isWS (lowerChar c) = isWS c := by
  by_cases h : isUpperAlpha c = true
  · have hw : isWordChar c = true := by simp [isWordChar, h]
    have hw2 : isWordChar (lowerChar c) = true := by rw [isWordChar_lowerChar]; exact hw
    rw [not_ws_of_word _ hw, not_ws_of_word _ hw2]
  · rw [lowerChar_of_not_upper c (by simpa using h)]

theorem headWS_map_lower (l : List Char) : headWS (l.map lowerChar) = headWS l := by
  cases l with
  | nil => rfl
  | cons c r => exact isWS_lowerChar c

theorem wsTidy_map_lower (l : List Char) (h : wsTidy l = true) :
    wsTidy (l.map lowerChar) = true := by
  induction l with
  | nil => rfl
  | cons c r ih =>
    rw [wsTidy_cons_iff] at h
    obtain ⟨h1, h2, h3⟩ := h
    show wsTidy (lowerChar c :: r.map lowerChar) = true
    rw [wsTidy_cons_iff]
    refine ⟨?_, ?_, ih h3⟩
    · intro hws
      rw [isWS_lowerChar] at hws
      rw [h1 hws]
      decide
    · rw [isWS_lowerChar, headWS_map_lower]
      exact h2

/-- `sentenceCase` character pipeline agrees with the word-level reading when
the preserved words are those containing a run of two capitals. -/
theorem sentenceCaseList_eq_words (l : List Char) :
    sentenceCaseList l = sentenceCaseWords hasCapsRun l := by
  have hws : wsTidy (stripBracesEnds (jsTrim (collapseWS l))) = true :=
    wsTidy_stripBracesEnds _ (wsTidy_jsTrim _ (wsTidy_collapseWS l))
  obtain ⟨w, hv⟩ := groupRuns_valid (stripBracesEnds (jsTrim (collapseWS l)))
  show stripTrailingDot ((overwriteIdx (groupRuns (stripBracesEnds (jsTrim (collapseWS l))))
      (groupRuns (capColons (capFirst
        ((stripBracesEnds (jsTrim (collapseWS l))).map lowerChar))))).flatten)
    = stripTrailingDot (List.flatten (List.zipWith (fun o c => if hasCapsRun o then o else c)
        (groupRuns (stripBracesEnds (jsTrim (collapseWS l))))
        (capToks true ((groupRuns (stripBracesEnds (jsTrim (collapseWS l)))).map
          (List.map lowerChar)))))
  have hmap : (stripBracesEnds (jsTrim (collapseWS l))).map lowerChar
      = ((groupRuns (stripBracesEnds (jsTrim (collapseWS l)))).map
          (List.map lowerChar)).flatten := by
    conv_lhs => rw [← groupRuns_flatten (stripBracesEnds (jsTrim (collapseWS l)))]
    rw [List.map_flatten]
  have hvlow : ValidRuns w ((groupRuns (stripBracesEnds (jsTrim (collapseWS l)))).map
      (List.map lowerChar)) := validRuns_map_lower w _ hv
  have htokws : ∀ tok ∈ (groupRuns (stripBracesEnds (jsTrim (collapseWS l)))).map
      (List.map lowerChar), wsTidy tok = true := by
    intro tok htok
    obtain ⟨t, ht, rfl⟩ := List.mem_map.1 htok
    exact wsTidy_map_lower t (wsTidy_token _ hws t ht)
  have hkey : capColons (capFirst ((stripBracesEnds (jsTrim (collapseWS l))).map lowerChar))
      = (capToks true ((groupRuns (stripBracesEnds (jsTrim (collapseWS l)))).map
          (List.map lowerChar))).flatten := by
    rw [hmap]
    exact ccGo_capToks_aux _ _ le_rfl w true hvlow htokws
  have hout : groupRuns (capColons (capFirst
        ((stripBracesEnds (jsTrim (collapseWS l))).map lowerChar)))
      = capToks true ((groupRuns (stripBracesEnds (jsTrim (collapseWS l)))).map
          (List.map lowerChar)) := by
    rw [hkey]
    exact flatten_groupRuns w _ (validRuns_capToks w _ hvlow true)
  rw [hout, overwriteIdx_eq_zipWith _ _ (by rw [capToks_length, List.length_map])]

/-- C4 counterexample: the preserved tokens are those matching
`/[A-Z]{2,}/` anywhere in the word, not words that are entirely upper-case:
on "x ABcd" the code keeps "ABcd" as written, while the claim as stated
would lower-case it to "abcd". -/
theorem claim4_counterexample :
    sentenceCase "x ABcd" = "X ABcd" ∧ sentenceCaseSpec allCapsWord "x ABcd" = "X abcd" := by
  exact ⟨by decide, by decide⟩

/-- C4 (amended): sentence-casing lower-cases everything, capitalizes the
first letter and the first letter after a colon, and restores every original
word that contains two consecutive capital letters (`/[A-Z]{2,}/`), finally
dropping one trailing period. -/
theorem claim4_sentence_case_amended (t : String) :
    sentenceCase t = sentenceCaseSpec hasCapsRun t := by
  by_cases h : t = ""
  · subst h
    rfl
  · show (if t = "" then "" else ⟨sentenceCaseList t.data⟩) = _
    rw [if_neg h]
    show String.mk (sentenceCaseList t.data) = String.mk (sentenceCaseWords hasCapsRun t.data)
    rw [sentenceCaseList_eq_words]
